import Mathlib

/-!
# Verification of the riptimize RI-redistribution core

A shallow embedding of the pure core of `riptimize.py`: mismatch
computation, zone filtering, surplus aggregation, the greedy
redistribution planner and the plan executor/batcher.  Python dicts are
modelled as insertion-ordered association lists (the source runs on
Python 2, where `dict.items()` returns a snapshot list, so every loop in
the source reads a well-defined sequence of entries; the embedding fixes
insertion order, a deterministic refinement of the unordered dict).
Python ints are `Int`.  The external AWS calls are modelled by the
`ModResult` type: constructor `api` stands for an invocation of
`conn.modify_reserved_instances`, `dryRun` for the sentinel string
`rimod-<DRY-RUN>` returned without any external call.
-/

set_option maxHeartbeats 1000000
set_option linter.unnecessarySeqFocus false

namespace Riptimize

/-- The `(instance_type, availability_zone)` pair, the key of every inventory dict. -/
abbrev ITypeAndAZ := String × String

/-- A Python dict keyed by `ITypeAndAZ` with integer counts, as an
insertion-ordered association list. -/
abbrev Inventory := List (ITypeAndAZ × Int)

/-- First-match association-list lookup; models Python `d[k]` / `k in d`. -/
def dget {α β : Type} [DecidableEq α] : List (α × β) → α → Option β
  | [], _ => none
  | p :: rest, k => if p.1 = k then some p.2 else dget rest k

/-- Lookup with default 0, models Python `d.get(k, 0)`. -/
def dgetD {α : Type} [DecidableEq α] (m : List (α × Int)) (k : α) : Int :=
  (dget m k).getD 0

/-- Sum of the values of all entries of `m` with key `k` (for a dict,
i.e. a list with no duplicate keys, this is `d.get(k, 0)`). -/
def dsum {α : Type} [DecidableEq α] (m : List (α × Int)) (k : α) : Int :=
  ((m.filter fun p => decide (p.1 = k)).map Prod.snd).sum

/-- One iteration of the loop body of `compute_ri_mistmatch`
(riptimize.py lines 217-220): `if key not in mismatch: mismatch[key] = 0`
followed by `mismatch[key] -= count`. -/
def mismatch_step (m : Inventory) (kc : ITypeAndAZ × Int) : Inventory :=
  (if (dget m kc.1).isSome then m else m ++ [(kc.1, 0)]).map
    fun p => if p.1 = kc.1 then (p.1, p.2 - kc.2) else p

/-- Function `compute_ri_mistmatch` (riptimize.py lines 214-222): copy the RI
inventory, subtract every demand entry, drop zero diffs. -/
def compute_ri_mistmatch (ri_inventory i_inventory : Inventory) : Inventory :=
  (i_inventory.foldl mismatch_step ri_inventory).filter fun p => decide (p.2 ≠ 0)

/-- One iteration of the inner loop of `aggregate_inventory`
(riptimize.py lines 174-178): add `count` to the entry, inserting it if
absent. -/
def inventory_add (m : Inventory) (kc : ITypeAndAZ × Int) : Inventory :=
  if (dget m kc.1).isSome then m.map fun p => if p.1 = kc.1 then (p.1, p.2 + kc.2) else p
  else m ++ [(kc.1, kc.2)]

/-- Function `aggregate_inventory` (riptimize.py lines 171-179): merge the
per-account inventories (the dict values, in order) into one inventory. -/
def aggregate_inventory (inventory_by_account : List (String × Inventory)) : Inventory :=
  inventory_by_account.foldl (fun acc kv => kv.2.foldl inventory_add acc) []

/-- Function `eliminate_unsupported_zones` (riptimize.py lines 269-273): split the
mismatch by zone membership in `supported_ri_zones`; the eliminated part
is stored with the sign of each diff inverted. -/
def eliminate_unsupported_zones (mismatch : Inventory) (supported_ri_zones : List String) :
    Inventory × Inventory :=
  (mismatch.filter fun p => decide (p.1.2 ∈ supported_ri_zones),
   (mismatch.filter fun p => decide (p.1.2 ∉ supported_ri_zones)).map fun p => (p.1, -p.2))

/-- One iteration of the loop of `compute_ri_surplus`
(riptimize.py lines 228-231): add the diff to the per-type total. -/
def surplus_step (m : List (String × Int)) (p : ITypeAndAZ × Int) : List (String × Int) :=
  (if (dget m p.1.1).isSome then m else m ++ [(p.1.1, 0)]).map
    fun q => if q.1 = p.1.1 then (q.1, q.2 + p.2) else q

/-- Function `compute_ri_surplus` (riptimize.py lines 225-233). -/
def compute_ri_surplus (clean_mismatch : Inventory) : List (String × Int) :=
  clean_mismatch.foldl surplus_step []

/-- A plan action `(instance_type, source_az, dest_az, count)`
(riptimize.py line 255). -/
abbrev Action := String × String × String × Int

/-- The inner donor loop of `greedy_distribution` for one recipient
(riptimize.py lines 249-264).  Given the recipient key and its current
(negative) deficit, scan the donors in order; on a matching instance
type move `min(abs(deficit), count)`, delete or decrement the donor, and
stop once the deficit is compensated.  Returns the donors left after the
pass and the actions appended to the plan during it. -/
def greedy_scan (recepient_itype recepient_az : String) (deficit : Int) :
    List (ITypeAndAZ × Int) → List (ITypeAndAZ × Int) × List Action
  | [] => ([], [])
  | (donor_itype_and_az, count) :: rest =>
    if donor_itype_and_az.1 = recepient_itype then
      let move_count := min |deficit| count
      let action : Action := (donor_itype_and_az.1, donor_itype_and_az.2, recepient_az, move_count)
      if 0 ≤ deficit + move_count then
        -- `break`: the rest of the donors is untouched; the consulted
        -- donor is deleted when exhausted, decremented otherwise
        (if count = move_count then rest else (donor_itype_and_az, count - move_count) :: rest,
         [action])
      else
        let res := greedy_scan recepient_itype recepient_az (deficit + move_count) rest
        (if count = move_count then res.1 else (donor_itype_and_az, count - move_count) :: res.1,
         action :: res.2)
    else
      let res := greedy_scan recepient_itype recepient_az deficit rest
      ((donor_itype_and_az, count) :: res.1, res.2)

/-- The outer recipient loop of `greedy_distribution`
(riptimize.py lines 248-264), threading the donors dict through the
recipients in order and concatenating the emitted actions. -/
def greedy_pass : List (ITypeAndAZ × Int) → List (ITypeAndAZ × Int) → List Action
  | [], _ => []
  | (rk, deficit) :: rest, donors =>
    let res := greedy_scan rk.1 rk.2 deficit donors
    res.2 ++ greedy_pass rest res.1

/-- Function `greedy_distribution` (riptimize.py lines 236-266): split the
mismatch into recipients (`diff < 0`) and donors (`diff > 0`) and run
the greedy pass. -/
def greedy_distribution (mismatch : Inventory) : List Action :=
  let recepients := mismatch.filter fun p => decide (p.2 < 0)
  let donors := mismatch.filter fun p => decide (0 < p.2)
  greedy_pass recepients donors

/-- Total count moved by the plan out of donor key `k`. -/
def moved_from (plan : List Action) (k : ITypeAndAZ) : Int :=
  ((plan.filter fun a => decide ((a.1, a.2.1) = k)).map fun a => a.2.2.2).sum

/-- Total count moved by the plan into recipient key `k`. -/
def moved_into (plan : List Action) (k : ITypeAndAZ) : Int :=
  ((plan.filter fun a => decide ((a.1, a.2.2.1) = k)).map fun a => a.2.2.2).sum

/-- An active reserved-instance group as the executor sees it
(`boto` RI group object: id, instance_type, availability_zone and the
mutable instance_count). -/
structure RIGroup where
  id : String
  instance_type : String
  availability_zone : String
  instance_count : Int
deriving DecidableEq, Repr

/-- Result of `move_reserved_instances` (riptimize.py lines 321-324):
`api` models the call to `conn.modify_reserved_instances` with the
donor group id and the submitted target configurations (an
`(availability_zone, instance_count)` list); `dryRun` models the
sentinel string `rimod-<DRY-RUN>` returned without an external call. -/
inductive ModResult where
  | api (donor_group_id : String) (target_configurations : List (String × Int))
  | dryRun
deriving DecidableEq, Repr

/-- The donor-group filter predicate of riptimize.py line 287. -/
def is_donor (itype source_az : String) (g : RIGroup) : Bool :=
  g.instance_type == itype && g.availability_zone == source_az && decide (0 < g.instance_count)

/-- Python objects are mutable references into the `ri_groups` list; the
embedding identifies a group by its index in that list.  This computes
the `donor_groups` snapshot of riptimize.py line 287 as a list of
indices. -/
def donor_indices (groups : List RIGroup) (itype source_az : String) : List Nat :=
  (List.range groups.length).filter fun i => ((groups[i]?).map (is_donor itype source_az)).getD false

/-- A move descriptor `(donor_group, dest_az, move_count)`
(riptimize.py line 294), the group held by index. -/
abbrev Desc := Nat × String × Int

/-- The id of the group at index `i` (ids are never mutated, so any
version of the groups list gives the same answer). -/
def gid (groups : List RIGroup) (i : Nat) : String :=
  ((groups[i]?).map RIGroup.id).getD ""

/-- The current instance_count of the group at index `i`. -/
def gcount (groups : List RIGroup) (i : Nat) : Int :=
  ((groups[i]?).map RIGroup.instance_count).getD 0

/-- The immutable fields (id, instance_type, availability_zone) of the
group at index `i`; plan execution never changes them. -/
def gfields (groups : List RIGroup) (i : Nat) : Option (String × String × String) :=
  (groups[i]?).map fun g => (g.id, g.instance_type, g.availability_zone)

/-- The `while` loop of riptimize.py lines 289-298: walk the donor
snapshot while the action's remaining `count` is positive, move
`min(count, donor_group.instance_count)` out of each visited group
(decrementing it in place) and record one move descriptor per visited
group.  Returns the updated groups and the descriptors in order. -/
def consume_donors (groups : List RIGroup) (idxs : List Nat) (count : Int) (dest_az : String) :
    List RIGroup × List Desc :=
  match idxs with
  | [] => (groups, [])
  | i :: rest =>
    if 0 < count then
      match groups[i]? with
      | none => (groups, [])
      | some g =>
        let move_count := min count g.instance_count
        let groups1 := groups.set i { g with instance_count := g.instance_count - move_count }
        let res := consume_donors groups1 rest (count - move_count) dest_az
        (res.1, (i, dest_az, move_count) :: res.2)
    else (groups, [])

/-- The `modifications` dict of riptimize.py line 282: keyed by donor
group id, each value the list of move descriptors appended for that
group, keys in insertion order. -/
abbrev Mods := List (String × List Desc)

/-- The update `modifications[donor_group.id].append(move_descriptor)` with the
`if donor_group.id not in modifications` initialisation
(riptimize.py lines 292-295). -/
def mods_append (mods : Mods) (key : String) (d : Desc) : Mods :=
  if mods.any fun kv => kv.1 == key then
    mods.map fun kv => if kv.1 == key then (kv.1, kv.2 ++ [d]) else kv
  else mods ++ [(key, [d])]

/-- Record a run of move descriptors into the modifications dict, each
under the id of its donor group.  (In the source the append happens
inside the while loop, interleaved with the count mutation; group ids
are immutable, so recording the descriptors after the loop is the same.) -/
def record_descs (groups : List RIGroup) (mods : Mods) (descs : List Desc) : Mods :=
  descs.foldl (fun m d => mods_append m (gid groups d.1) d) mods

/-- The `for action in plan` loop of riptimize.py lines 284-298,
threading the mutable groups and the modifications dict. -/
def build_modifications (groups : List RIGroup) (mods : Mods) :
    List Action → List RIGroup × Mods
  | [] => (groups, mods)
  | action :: rest =>
    let idxs := donor_indices groups action.1 action.2.1
    let res := consume_donors groups idxs action.2.2.2 action.2.2.1
    build_modifications res.1 (record_descs res.1 mods res.2) rest

/-- The `target_configurations` built by `move_reserved_instances`
(riptimize.py lines 312-318): one `(dest_az, move_count)` configuration
per descriptor, plus, when the donor group still has a positive
instance_count after the whole plan was expanded, a remainder
configuration keeping that count in the group's own zone.  (`donor_group`
after the source's `for` loop is the group of the last descriptor.) -/
def target_configurations (groups : List RIGroup) (move_descriptor_list : List Desc) :
    List (String × Int) :=
  let configs := move_descriptor_list.map fun d => (d.2.1, d.2.2)
  match move_descriptor_list.getLast? with
  | none => configs
  | some last =>
    match groups[last.1]? with
    | none => configs
    | some g =>
      if 0 < g.instance_count then configs ++ [(g.availability_zone, g.instance_count)]
      else configs

/-- Function `move_reserved_instances` (riptimize.py lines 309-324): in live mode
one `ModifyReservedInstances` call for the donor group carrying the
target configurations, in dry-run mode the sentinel with no call. -/
def move_reserved_instances (groups : List RIGroup) (move_descriptor_list : List Desc)
    (optimize : Bool) : ModResult :=
  let donor_group_id := match move_descriptor_list.head? with
    | some d => gid groups d.1
    | none => ""
  if optimize then ModResult.api donor_group_id (target_configurations groups move_descriptor_list)
  else ModResult.dryRun

/-- Function `execute_plan` (riptimize.py lines 276-306): expand the plan into
per-donor-group modification batches, then submit one modification per
batch. -/
def execute_plan (ri_groups : List RIGroup) (plan : List Action) (optimize : Bool) :
    List ModResult :=
  let res := build_modifications ri_groups [] plan
  res.2.map fun kv => move_reserved_instances res.1 kv.2 optimize

/-- The donor ids of the external modification calls actually made. -/
def api_calls (results : List ModResult) : List String :=
  results.filterMap fun r => match r with
    | ModResult.api d _ => some d
    | ModResult.dryRun => none

/-- Total move count recorded against group index `i` in a descriptor list. -/
def descs_for (descs : List Desc) (i : Nat) : Int :=
  ((descs.filter fun d => decide (d.1 = i)).map fun d => d.2.2).sum

/-- Total move count recorded against group index `i` in the whole
modifications dict. -/
def mods_moves (mods : Mods) (i : Nat) : Int :=
  (mods.map fun kv => descs_for kv.2 i).sum

/-- Sum of the instance counts of a target-configuration list. -/
def configs_sum (configs : List (String × Int)) : Int :=
  (configs.map Prod.snd).sum

/-- The original capacity of the group with id `d` in the pristine
groups list (`find?` models looking the id up among unique group ids). -/
def original_capacity (groups : List RIGroup) (d : String) : Int :=
  ((groups.find? fun g => g.id == d).map RIGroup.instance_count).getD 0

/-- Steps 2-8 of `riptimize` (riptimize.py lines 107-130) restricted to
their pure data flow: the inventories, supported zones, in-flight
modification ids and RI groups stand in for what the AWS calls of steps
1-2 return.  `modifications_inflight` and the forced dry-run of step 8
are verbatim from lines 107 and 128. -/
def riptimize_core (ri_inventory i_inventory : Inventory) (supported_ri_zones : List String)
    (processing_modifications : List String) (ri_groups : List RIGroup) (optimize : Bool) :
    Inventory × Inventory × List Action × List ModResult :=
  let modifications_inflight : Bool := decide (processing_modifications.length ≠ 0)
  let mismatch := compute_ri_mistmatch ri_inventory i_inventory
  let cm := eliminate_unsupported_zones mismatch supported_ri_zones
  let plan := greedy_distribution cm.1
  let modification_ids :=
    if 0 < plan.length then execute_plan ri_groups plan (optimize && !modifications_inflight)
    else []
  (cm.1, cm.2, plan, modification_ids)

/-! Concrete instances used to exercise the theorems: the spec's worked
scenario and a small reservation-group population. -/

/-- Reserved inventory of the spec's worked scenario. -/
def ri_inventory_demo : Inventory := [(("m4.large", "us-east-1a"), 10)]

/-- Demand inventory of the spec's worked scenario. -/
def i_inventory_demo : Inventory :=
  [(("m4.large", "us-east-1a"), 4), (("m4.large", "us-east-1b"), 6)]

/-- Supported zones of the spec's worked scenario. -/
def supported_zones_demo : List String := ["us-east-1a", "us-east-1b"]

/-- The mismatch of the worked scenario. -/
def mismatch_demo : Inventory := compute_ri_mistmatch ri_inventory_demo i_inventory_demo

/-- A small population of active reservation groups. -/
def groups_demo : List RIGroup :=
  [⟨"ri-1", "m4.large", "us-east-1a", 4⟩,
   ⟨"ri-2", "m4.large", "us-east-1a", 6⟩,
   ⟨"ri-3", "c4.small", "us-east-1a", 5⟩]

/-- A two-action plan drawing twice from the same zone. -/
def plan_demo : List Action :=
  [("m4.large", "us-east-1a", "us-east-1b", 6), ("m4.large", "us-east-1a", "us-east-1c", 2)]

/-- A plan whose single action asks for more units than the matching
groups hold. -/
def plan_excess_demo : List Action := [("m4.large", "us-east-1a", "us-east-1b", 100)]

/-- A mismatch carrying a positive diff in an unsupported zone. -/
def mismatch_unsupported_pos : Inventory := [(("m4.large", "us-east-1f"), 3)]

/-- A mismatch carrying a deficit in an unsupported zone. -/
def mismatch_unsupported_neg : Inventory := [(("m4.large", "us-east-1f"), -3)]

/-! ## Association-list (dict) lemmas -/

theorem dget_eq_none {α β : Type} [DecidableEq α] (m : List (α × β)) (k : α) :
    dget m k = none ↔ k ∉ m.map Prod.fst := by
  induction m with
  | nil => simp [dget]
  | cons p rest ih =>
    by_cases h : p.1 = k
    · simp [dget, h]
    · have h2 : ¬ k = p.1 := fun hc => h hc.symm
      simp [dget, h, ih, h2]

theorem dget_append {α β : Type} [DecidableEq α] (m1 m2 : List (α × β)) (k : α) :
    dget (m1 ++ m2) k = match dget m1 k with
      | some v => some v
      | none => dget m2 k := by
  induction m1 with
  | nil => simp [dget]
  | cons p rest ih => by_cases h : p.1 = k <;> simp [dget, h, ih]

theorem dget_map_update {α β : Type} [DecidableEq α] (m : List (α × β)) (k0 : α) (f : β → β)
    (k : α) :
    dget (m.map fun p => if p.1 = k0 then (p.1, f p.2) else p) k =
      if k0 = k then (dget m k).map f else dget m k := by
  induction m with
  | nil => simp [dget]
  | cons p rest ih =>
    by_cases h0 : p.1 = k0 <;> by_cases hk : p.1 = k
    · have heq : k0 = k := h0.symm.trans hk
      simp [dget, h0, hk, heq]
    · have hne : ¬ k0 = k := fun hc => hk (h0.trans hc)
      simp [dget, h0, hk, hne, ih]
    · have hne : ¬ k0 = k := fun hc => h0 (hk.trans hc.symm)
      have hne2 : ¬ k = k0 := fun hc => hne hc.symm
      simp [dget, h0, hk, hne, hne2, ih]
    · simp [dget, h0, hk, ih]

theorem keys_map_update {α β : Type} [DecidableEq α] (m : List (α × β)) (k0 : α) (f : β → β) :
    (m.map fun p => if p.1 = k0 then (p.1, f p.2) else p).map Prod.fst = m.map Prod.fst := by
  induction m with
  | nil => rfl
  | cons p rest ih => by_cases h : p.1 = k0 <;> simp [h, ih]

theorem dget_map_sub (m : Inventory) (k0 : ITypeAndAZ) (c : Int) (k : ITypeAndAZ) :
    dget (m.map fun p => if p.1 = k0 then (p.1, p.2 - c) else p) k =
      if k0 = k then (dget m k).map (fun v => v - c) else dget m k :=
  dget_map_update m k0 (fun v => v - c) k

theorem keys_map_sub (m : Inventory) (k0 : ITypeAndAZ) (c : Int) :
    (m.map fun p => if p.1 = k0 then (p.1, p.2 - c) else p).map Prod.fst = m.map Prod.fst :=
  keys_map_update m k0 (fun v => v - c)

theorem dget_map_add (m : Inventory) (k0 : ITypeAndAZ) (c : Int) (k : ITypeAndAZ) :
    dget (m.map fun p => if p.1 = k0 then (p.1, p.2 + c) else p) k =
      if k0 = k then (dget m k).map (fun v => v + c) else dget m k :=
  dget_map_update m k0 (fun v => v + c) k

theorem dsum_nil {α : Type} [DecidableEq α] (k : α) : dsum ([] : List (α × Int)) k = 0 := rfl

theorem dsum_cons {α : Type} [DecidableEq α] (p : α × Int) (m : List (α × Int)) (k : α) :
    dsum (p :: m) k = (if p.1 = k then p.2 else 0) + dsum m k := by
  by_cases h : p.1 = k <;> simp [dsum, List.filter_cons, h]

theorem dsum_nonneg {α : Type} [DecidableEq α] (m : List (α × Int)) (k : α)
    (h : ∀ p ∈ m, 0 ≤ p.2) : 0 ≤ dsum m k := by
  induction m with
  | nil => simp [dsum_nil]
  | cons p rest ih =>
    rw [dsum_cons]
    have hp := h p (by simp)
    have hr := ih fun q hq => h q (by simp [hq])
    by_cases hk : p.1 = k <;> simp [hk] <;> omega

theorem dsum_eq_zero {α : Type} [DecidableEq α] (m : List (α × Int)) (k : α)
    (h : k ∉ m.map Prod.fst) : dsum m k = 0 := by
  induction m with
  | nil => rfl
  | cons p rest ih =>
    rw [dsum_cons]
    have h1 : ¬ p.1 = k := fun hc => h (by simp [hc])
    have h2 : k ∉ rest.map Prod.fst := fun hc => h (by simp [hc])
    simp [h1, ih h2]

theorem dget_of_mem_nodup {α β : Type} [DecidableEq α] {m : List (α × β)} {k : α} {v : β}
    (hm : (m.map Prod.fst).Nodup) (hmem : (k, v) ∈ m) : dget m k = some v := by
  induction m with
  | nil => cases hmem
  | cons p rest ih =>
    rcases List.mem_cons.mp hmem with h | h
    · simp [dget, ← h]
    · have hk : ¬ p.1 = k := by
        intro hc
        have : k ∈ rest.map Prod.fst := List.mem_map_of_mem Prod.fst h
        exact (List.nodup_cons.mp hm).1 (hc ▸ this)
      simp [dget, hk, ih (List.nodup_cons.mp hm).2 h]

theorem dsum_eq_dgetD {α : Type} [DecidableEq α] (m : List (α × Int)) (k : α)
    (hm : (m.map Prod.fst).Nodup) : dsum m k = dgetD m k := by
  induction m with
  | nil => rfl
  | cons p rest ih =>
    rw [dsum_cons]
    have hrest := (List.nodup_cons.mp hm).2
    by_cases hk : p.1 = k
    · have : k ∉ rest.map Prod.fst := hk ▸ (List.nodup_cons.mp hm).1
      simp [hk, dsum_eq_zero rest k this, dgetD, dget]
    · simp [hk, ih hrest, dgetD, dget]

theorem keys_filter_subset {α β : Type} (m : List (α × β)) (q : α × β → Bool) :
    ∀ k, k ∈ (m.filter q).map Prod.fst → k ∈ m.map Prod.fst := by
  intro k hk
  rcases List.mem_map.mp hk with ⟨p, hp, hpk⟩
  exact hpk ▸ List.mem_map_of_mem Prod.fst (List.mem_of_mem_filter hp)

theorem dget_filter_value {α : Type} [DecidableEq α] (m : List (α × Int)) (q : α × Int → Bool)
    (k : α) (hm : (m.map Prod.fst).Nodup) :
    dget (m.filter q) k = match dget m k with
      | some v => if q (k, v) then some v else none
      | none => none := by
  induction m with
  | nil => simp [dget]
  | cons p rest ih =>
    have hrest := (List.nodup_cons.mp hm).2
    by_cases hk : p.1 = k
    · have hnone : dget (rest.filter q) k = none := by
        rw [dget_eq_none]
        intro hc
        exact (List.nodup_cons.mp hm).1 (hk ▸ keys_filter_subset rest _ k hc)
      have hp : ((k, p.2) : α × Int) = p := by rw [← hk]
      by_cases hq : q p <;> simp [List.filter_cons, hq, dget, hk, hnone, hp]
    · by_cases hq : q p <;> simp [List.filter_cons, hq, dget, hk, ih hrest]

/-! ## Mismatch-calculator lemmas -/

theorem dget_mismatch_step (m : Inventory) (kc : ITypeAndAZ × Int) (k : ITypeAndAZ) :
    dget (mismatch_step m kc) k = if kc.1 = k then some (dgetD m k - kc.2) else dget m k := by
  unfold mismatch_step
  by_cases hs : (dget m kc.1).isSome
  · rw [if_pos hs, dget_map_sub]
    by_cases hk : kc.1 = k
    · subst hk
      rcases Option.isSome_iff_exists.mp hs with ⟨v, hv⟩
      simp [hv, dgetD]
    · simp [hk]
  · rw [if_neg hs, dget_map_sub]
    have hnone : dget m kc.1 = none := Option.not_isSome_iff_eq_none.mp hs
    by_cases hk : kc.1 = k
    · subst hk
      rw [if_pos rfl, dget_append, hnone]
      simp [dget, dgetD, hnone]
    · have hk2 : ¬ k = kc.1 := fun hc => hk hc.symm
      rw [if_neg hk, dget_append]
      cases hv : dget m k <;> simp [hk, hk2, hv, dget]

theorem nodup_keys_mismatch_step (m : Inventory) (kc : ITypeAndAZ × Int)
    (h : (m.map Prod.fst).Nodup) : ((mismatch_step m kc).map Prod.fst).Nodup := by
  unfold mismatch_step
  by_cases hs : (dget m kc.1).isSome
  · rw [if_pos hs, keys_map_sub]
    exact h
  · rw [if_neg hs, keys_map_sub, List.map_append]
    have hnotin : kc.1 ∉ m.map Prod.fst := (dget_eq_none m kc.1).mp
      (Option.not_isSome_iff_eq_none.mp hs)
    simp [List.nodup_append, h, fun hc : kc.1 ∈ m.map Prod.fst => hnotin hc]

theorem dget_mismatch_fold (i_inv : Inventory) (m : Inventory) (k : ITypeAndAZ) :
    dget (i_inv.foldl mismatch_step m) k =
      if (dget m k).isSome ∨ (dget i_inv k).isSome then some (dgetD m k - dsum i_inv k)
      else none := by
  induction i_inv generalizing m with
  | nil =>
    cases hv : dget m k <;> simp [hv, dsum_nil, dgetD, dget]
  | cons kc rest ih =>
    rw [List.foldl_cons, ih, dsum_cons]
    by_cases hk : kc.1 = k
    · have h1 : dget (mismatch_step m kc) k = some (dgetD m k - kc.2) := by
        rw [dget_mismatch_step, if_pos hk]
      have h2 : dgetD (mismatch_step m kc) k = dgetD m k - kc.2 := by
        simp [dgetD, h1]
      have h3 : dget (kc :: rest) k = some kc.2 := by
        simp [dget, hk]
      rw [h1, h2, h3, if_pos hk]
      simp only [Option.isSome_some, true_or, or_true, if_true, Option.some.injEq]
      ring
    · have h1 : dget (mismatch_step m kc) k = dget m k := by
        rw [dget_mismatch_step, if_neg hk]
      have h2 : dgetD (mismatch_step m kc) k = dgetD m k := by
        simp [dgetD, h1]
      have h3 : dget (kc :: rest) k = dget rest k := by
        simp [dget, hk]
      rw [h1, h2, h3, if_neg hk, zero_add]

theorem nodup_keys_mismatch_fold (i_inv : Inventory) (m : Inventory)
    (h : (m.map Prod.fst).Nodup) : ((i_inv.foldl mismatch_step m).map Prod.fst).Nodup := by
  induction i_inv generalizing m with
  | nil => exact h
  | cons kc rest ih => exact ih _ (nodup_keys_mismatch_step m kc h)

/-! ## Aggregation lemmas -/

theorem dget_inventory_add (m : Inventory) (kc : ITypeAndAZ × Int) (k : ITypeAndAZ) :
    dget (inventory_add m kc) k = if kc.1 = k then some (dgetD m k + kc.2) else dget m k := by
  unfold inventory_add
  by_cases hs : (dget m kc.1).isSome
  · rw [if_pos hs, dget_map_add]
    by_cases hk : kc.1 = k
    · subst hk
      rcases Option.isSome_iff_exists.mp hs with ⟨v, hv⟩
      simp [hv, dgetD]
    · simp [hk]
  · rw [if_neg hs, dget_append]
    have hnone : dget m kc.1 = none := Option.not_isSome_iff_eq_none.mp hs
    by_cases hk : kc.1 = k
    · subst hk
      simp [hnone, dget, dgetD]
    · have hk2 : ¬ k = kc.1 := fun hc => hk hc.symm
      cases hv : dget m k <;> simp [hk, hk2, hv, dget]

theorem dget_inventory_fold (inv : Inventory) (m : Inventory) (k : ITypeAndAZ) :
    dget (inv.foldl inventory_add m) k =
      if (dget m k).isSome ∨ (dget inv k).isSome then some (dgetD m k + dsum inv k)
      else none := by
  induction inv generalizing m with
  | nil =>
    cases hv : dget m k <;> simp [hv, dsum_nil, dgetD, dget]
  | cons kc rest ih =>
    rw [List.foldl_cons, ih, dsum_cons]
    by_cases hk : kc.1 = k
    · have h1 : dget (inventory_add m kc) k = some (dgetD m k + kc.2) := by
        rw [dget_inventory_add, if_pos hk]
      have h2 : dgetD (inventory_add m kc) k = dgetD m k + kc.2 := by
        simp [dgetD, h1]
      have h3 : dget (kc :: rest) k = some kc.2 := by
        simp [dget, hk]
      rw [h1, h2, h3, if_pos hk]
      simp only [Option.isSome_some, true_or, or_true, if_true, Option.some.injEq]
      ring
    · have h1 : dget (inventory_add m kc) k = dget m k := by
        rw [dget_inventory_add, if_neg hk]
      have h2 : dgetD (inventory_add m kc) k = dgetD m k := by
        simp [dgetD, h1]
      have h3 : dget (kc :: rest) k = dget rest k := by
        simp [dget, hk]
      rw [h1, h2, h3, if_neg hk, zero_add]

/-! ## Claim theorems: mismatch, aggregation, zone filter, worked scenario -/

/-- C3: for every pair of inventories, `compute_ri_mistmatch` maps every
key present in either input to `reserved.get(key,0) - demand.get(key,0)`
(keys present only in the demand included, with negative diff), absent
keys to nothing, and no entry of the result has diff 0. -/
theorem compute_ri_mistmatch_spec (ri_inventory i_inventory : Inventory)
    (hR : (ri_inventory.map Prod.fst).Nodup) (hI : (i_inventory.map Prod.fst).Nodup) :
    (∀ k : ITypeAndAZ, dget (compute_ri_mistmatch ri_inventory i_inventory) k =
        if dgetD ri_inventory k - dgetD i_inventory k = 0 then none
        else some (dgetD ri_inventory k - dgetD i_inventory k)) ∧
    ∀ p ∈ compute_ri_mistmatch ri_inventory i_inventory, p.2 ≠ 0 := by
  constructor
  · intro k
    unfold compute_ri_mistmatch
    rw [dget_filter_value _ _ k (nodup_keys_mismatch_fold i_inventory ri_inventory hR),
      dget_mismatch_fold, dsum_eq_dgetD i_inventory k hI]
    by_cases hc : (dget ri_inventory k).isSome ∨ (dget i_inventory k).isSome
    · rw [if_pos hc]
      by_cases hz : dgetD ri_inventory k - dgetD i_inventory k = 0 <;> simp [hz]
    · rw [if_neg hc]
      push_neg at hc
      have h1 : dget ri_inventory k = none := Option.not_isSome_iff_eq_none.mp hc.1
      have h2 : dget i_inventory k = none := Option.not_isSome_iff_eq_none.mp hc.2
      simp [dgetD, h1, h2]
  · intro p hp
    simpa using List.of_mem_filter hp

/-- Witness for C3 at the worked scenario, key only present in the
demand inventory. -/
theorem compute_ri_mistmatch_spec_witness :
    dget (compute_ri_mistmatch ri_inventory_demo i_inventory_demo) ("m4.large", "us-east-1b") =
      if dgetD ri_inventory_demo ("m4.large", "us-east-1b") -
          dgetD i_inventory_demo ("m4.large", "us-east-1b") = 0 then none
      else some (dgetD ri_inventory_demo ("m4.large", "us-east-1b") -
          dgetD i_inventory_demo ("m4.large", "us-east-1b")) :=
  (compute_ri_mistmatch_spec ri_inventory_demo i_inventory_demo (by decide) (by decide)).1
    ("m4.large", "us-east-1b")

theorem dget_merge_two (A B : Inventory) (k : ITypeAndAZ) :
    dget (B.foldl inventory_add (A.foldl inventory_add [])) k =
      if (dget A k).isSome ∨ (dget B k).isSome then some (dsum A k + dsum B k) else none := by
  have hA : dget (A.foldl inventory_add []) k =
      if (dget A k).isSome then some (dsum A k) else none := by
    rw [dget_inventory_fold]
    simp [dget, dgetD]
  have hA2 : dgetD (A.foldl inventory_add []) k = dsum A k := by
    rw [dgetD, hA]
    by_cases h : (dget A k).isSome
    · simp [h]
    · have h0 : dget A k = none := Option.not_isSome_iff_eq_none.mp h
      simp [h, dsum_eq_zero A k ((dget_eq_none A k).mp h0)]
  have hA3 : (dget (A.foldl inventory_add []) k).isSome = (dget A k).isSome := by
    rw [hA]
    by_cases h : (dget A k).isSome <;> simp [h]
  rw [dget_inventory_fold, hA2, hA3]

/-- C9: aggregation is order-independent as a map (aggregating A then B
agrees with aggregating B then A on every key), and aggregating an empty
per-account map yields the empty inventory. -/
theorem aggregate_inventory_comm (id1 id2 : String) (A B : Inventory) :
    (∀ k : ITypeAndAZ, dget (aggregate_inventory [(id1, A), (id2, B)]) k =
        dget (aggregate_inventory [(id1, B), (id2, A)]) k) ∧
    aggregate_inventory [] = [] := by
  constructor
  · intro k
    have hAB : aggregate_inventory [(id1, A), (id2, B)] =
        B.foldl inventory_add (A.foldl inventory_add []) := rfl
    have hBA : aggregate_inventory [(id1, B), (id2, A)] =
        A.foldl inventory_add (B.foldl inventory_add []) := rfl
    rw [hAB, hBA, dget_merge_two, dget_merge_two]
    by_cases hA : (dget A k).isSome <;> by_cases hB : (dget B k).isSome <;>
      simp [hA, hB, Int.add_comm]
  · rfl

/-- C6: the zone filter is a lossless split of the mismatch: clean plus
the sign-inverted eliminated inventory is a permutation of the input
(no entry lost, invented, or duplicated), and no key lands in both
outputs. -/
theorem eliminate_unsupported_zones_partition (m : Inventory) (S : List String) :
    ((eliminate_unsupported_zones m S).1 ++
        ((eliminate_unsupported_zones m S).2.map fun p => (p.1, -p.2))).Perm m ∧
    ∀ k : ITypeAndAZ, ¬(k ∈ (eliminate_unsupported_zones m S).1.map Prod.fst ∧
        k ∈ (eliminate_unsupported_zones m S).2.map Prod.fst) := by
  constructor
  · have h1 : (eliminate_unsupported_zones m S).2.map (fun p => (p.1, -p.2)) =
        m.filter fun p => !decide (p.1.2 ∈ S) := by
      show ((m.filter fun p => decide (p.1.2 ∉ S)).map fun p => (p.1, -p.2)).map _ = _
      rw [List.map_map]
      have h2 : ((fun p : ITypeAndAZ × Int => (p.1, -p.2)) ∘ fun p => (p.1, -p.2)) = id := by
        funext p
        simp
      rw [h2, List.map_id]
      congr 1
      funext p
      simp [decide_not]
    rw [h1]
    exact List.filter_append_perm _ m
  · intro k hk
    obtain ⟨h1, h2⟩ := hk
    rcases List.mem_map.mp h1 with ⟨p, hp, hpk⟩
    rcases List.mem_map.mp h2 with ⟨q, hq, hqk⟩
    rcases List.mem_map.mp hq with ⟨q0, hq0, hq0q⟩
    have hpS : p.1.2 ∈ S := by simpa using List.of_mem_filter hp
    have hqS : q0.1.2 ∉ S := by simpa using List.of_mem_filter hq0
    apply hqS
    have hkeys : q0.1 = p.1 := by
      have hqk2 : q0.1 = k := by
        rw [← hq0q] at hqk
        exact hqk
      rw [hqk2, hpk]
    rw [hkeys]
    exact hpS

/-- C8 as stated is false: for a mismatch with a positive diff in an
unsupported zone, the eliminated entry is the sign-inverted diff, which
is negative, not positive. -/
theorem eliminated_positive_counterexample :
    ¬ ∀ p ∈ (eliminate_unsupported_zones mismatch_unsupported_pos ["us-east-1a"]).2,
        (p.1, -p.2) ∈ mismatch_unsupported_pos ∧ 0 < p.2 := by decide

/-- C8 (amended): every entry of the eliminated inventory is the
corresponding mismatch entry with its sign inverted, and it is a
positive demand count provided every unsupported-zone entry of the
mismatch is a deficit (which holds by construction in the pipeline,
where reservations exist only in supported zones). -/
theorem eliminated_inverted_and_positive (m : Inventory) (S : List String)
    (h : ∀ q ∈ m, q.1.2 ∉ S → q.2 < 0) :
    ∀ p ∈ (eliminate_unsupported_zones m S).2, (p.1, -p.2) ∈ m ∧ 0 < p.2 := by
  intro p hp
  rcases List.mem_map.mp hp with ⟨q0, hq0, hq0p⟩
  have hq0m := List.mem_of_mem_filter hq0
  have hqS : q0.1.2 ∉ S := by simpa using List.of_mem_filter hq0
  have hneg := h q0 hq0m hqS
  subst hq0p
  refine ⟨?_, ?_⟩
  · simpa using hq0m
  · show 0 < -q0.2
    omega

/-- Witness for C8 (amended): a pure-deficit mismatch in an unsupported
zone yields a positive eliminated demand count. -/
theorem eliminated_inverted_and_positive_witness :
    ((("m4.large", "us-east-1f"), -(3 : Int)) ∈ mismatch_unsupported_neg ∧ (0 : Int) < 3) :=
  eliminated_inverted_and_positive mismatch_unsupported_neg ["us-east-1a"] (by decide)
    (("m4.large", "us-east-1f"), 3) (by decide)

/-- C7: the spec worked scenario: the mismatch is exactly
`{(m4.large, us-east-1a): 6, (m4.large, us-east-1b): -6}` and, with both
zones supported, the greedy plan is exactly
`[(m4.large, us-east-1a, us-east-1b, 6)]`. -/
theorem worked_scenario :
    compute_ri_mistmatch ri_inventory_demo i_inventory_demo =
      [(("m4.large", "us-east-1a"), 6), (("m4.large", "us-east-1b"), -6)] ∧
    greedy_distribution
        (eliminate_unsupported_zones
          (compute_ri_mistmatch ri_inventory_demo i_inventory_demo) supported_zones_demo).1 =
      [("m4.large", "us-east-1a", "us-east-1b", 6)] := by
  constructor <;> rfl

/-! ## Greedy-planner lemmas -/

theorem moved_from_nil (k : ITypeAndAZ) : moved_from [] k = 0 := rfl

theorem moved_from_cons (a : Action) (plan : List Action) (k : ITypeAndAZ) :
    moved_from (a :: plan) k =
      (if (a.1, a.2.1) = k then a.2.2.2 else 0) + moved_from plan k := by
  by_cases h : (a.1, a.2.1) = k <;> simp [moved_from, List.filter_cons, h]

theorem moved_from_append (p1 p2 : List Action) (k : ITypeAndAZ) :
    moved_from (p1 ++ p2) k = moved_from p1 k + moved_from p2 k := by
  induction p1 with
  | nil => simp [moved_from]
  | cons a rest ih =>
    rw [List.cons_append, moved_from_cons, moved_from_cons, ih]
    ring

theorem moved_into_nil (k : ITypeAndAZ) : moved_into [] k = 0 := rfl

theorem moved_into_cons (a : Action) (plan : List Action) (k : ITypeAndAZ) :
    moved_into (a :: plan) k =
      (if (a.1, a.2.2.1) = k then a.2.2.2 else 0) + moved_into plan k := by
  by_cases h : (a.1, a.2.2.1) = k <;> simp [moved_into, List.filter_cons, h]

theorem moved_into_append (p1 p2 : List Action) (k : ITypeAndAZ) :
    moved_into (p1 ++ p2) k = moved_into p1 k + moved_into p2 k := by
  induction p1 with
  | nil => simp [moved_into]
  | cons a rest ih =>
    rw [List.cons_append, moved_into_cons, moved_into_cons, ih]
    ring

theorem moved_into_eq_zero (plan : List Action) (k : ITypeAndAZ)
    (h : ∀ a ∈ plan, ¬ (a.1, a.2.2.1) = k) : moved_into plan k = 0 := by
  induction plan with
  | nil => rfl
  | cons a rest ih =>
    rw [moved_into_cons, if_neg (h a (by simp)), ih fun b hb => h b (by simp [hb])]
    ring

/-- Per-donor conservation of the inner scan: what a donor key retains
plus what the scan moved out of it is exactly what it held before. -/
theorem greedy_scan_conserves (ri raz : String) (deficit : Int)
    (donors : List (ITypeAndAZ × Int)) (k : ITypeAndAZ) :
    dsum (greedy_scan ri raz deficit donors).1 k +
      moved_from (greedy_scan ri raz deficit donors).2 k = dsum donors k := by
  induction donors generalizing deficit with
  | nil => simp [greedy_scan, dsum_nil, moved_from]
  | cons p rest ih =>
    obtain ⟨dk, count⟩ := p
    simp only [greedy_scan]
    by_cases hm : dk.1 = ri
    · rw [if_pos hm]
      by_cases hb : 0 ≤ deficit + min |deficit| count
      · rw [if_pos hb]
        by_cases he : count = min |deficit| count
        · rw [if_pos he, ← he]
          dsimp only
          simp only [dsum_cons, moved_from_cons, moved_from_nil]
          by_cases hdk : dk = k <;> simp [hdk] <;> ring
        · rw [if_neg he]
          dsimp only
          simp only [dsum_cons, moved_from_cons, moved_from_nil]
          by_cases hdk : dk = k <;> simp [hdk] <;> ring
      · rw [if_neg hb]
        by_cases he : count = min |deficit| count
        · rw [if_pos he]
          dsimp only
          simp only [dsum_cons, moved_from_cons]
          by_cases hdk : dk = k <;>
            (simp [hdk]; linarith [ih (deficit + min |deficit| count)])
        · rw [if_neg he]
          dsimp only
          simp only [dsum_cons, moved_from_cons]
          by_cases hdk : dk = k <;>
            (simp [hdk]; linarith [ih (deficit + min |deficit| count)])
    · rw [if_neg hm]
      dsimp only
      simp only [dsum_cons]
      by_cases hdk : dk = k <;> simp [hdk] <;> linarith [ih deficit]

/-- Every action of the inner scan carries the recipient instance type
and destination zone. -/
theorem greedy_scan_dests (ri raz : String) (donors : List (ITypeAndAZ × Int)) :
    ∀ deficit : Int, ∀ a ∈ (greedy_scan ri raz deficit donors).2,
      a.1 = ri ∧ a.2.2.1 = raz := by
  induction donors with
  | nil =>
    intro deficit a ha
    simp [greedy_scan] at ha
  | cons p rest ih =>
    intro deficit a ha
    obtain ⟨dk, count⟩ := p
    simp only [greedy_scan] at ha
    by_cases hm : dk.1 = ri
    · rw [if_pos hm] at ha
      by_cases hb : 0 ≤ deficit + min |deficit| count
      · rw [if_pos hb] at ha
        dsimp only at ha
        simp only [List.mem_singleton] at ha
        subst ha
        exact ⟨hm, rfl⟩
      · rw [if_neg hb] at ha
        dsimp only at ha
        rcases List.mem_cons.mp ha with h | h
        · subst h
          exact ⟨hm, rfl⟩
        · exact ih (deficit + min |deficit| count) a h
    · rw [if_neg hm] at ha
      dsimp only at ha
      exact ih deficit a ha

/-- The inner scan moves at most `-deficit` units into any key. -/
theorem greedy_scan_into_le (ri raz : String) (donors : List (ITypeAndAZ × Int))
    (k : ITypeAndAZ) :
    ∀ deficit : Int, deficit < 0 → (∀ p ∈ donors, 0 < p.2) →
      moved_into (greedy_scan ri raz deficit donors).2 k ≤ -deficit := by
  induction donors with
  | nil =>
    intro deficit hd _
    simp [greedy_scan, moved_into_nil]
    omega
  | cons p rest ih =>
    intro deficit hd hpos
    obtain ⟨dk, count⟩ := p
    have hcount : 0 < count := hpos (dk, count) (by simp)
    have hrest : ∀ p ∈ rest, 0 < p.2 := fun q hq => hpos q (by simp [hq])
    have habs : |deficit| = -deficit := abs_of_neg hd
    have hmc_le : min |deficit| count ≤ -deficit := by
      have := min_le_left |deficit| count
      omega
    have hmc_pos : 0 < min |deficit| count := by
      have := lt_min (show (0 : Int) < |deficit| by omega) hcount
      omega
    simp only [greedy_scan]
    by_cases hm : dk.1 = ri
    · rw [if_pos hm]
      by_cases hb : 0 ≤ deficit + min |deficit| count
      · rw [if_pos hb]
        dsimp only
        rw [moved_into_cons, moved_into_nil]
        by_cases hdk : ((dk.1, raz) : ITypeAndAZ) = k <;> simp [hdk] <;> omega
      · rw [if_neg hb]
        dsimp only
        rw [moved_into_cons]
        have h2 : deficit + min |deficit| count < 0 := by omega
        have hih := ih (deficit + min |deficit| count) h2 hrest
        by_cases hdk : ((dk.1, raz) : ITypeAndAZ) = k <;> simp [hdk] <;> omega
    · rw [if_neg hm]
      dsimp only
      exact ih deficit hd hrest

/-- The inner scan keeps every remaining donor count positive. -/
theorem greedy_scan_donors_pos (ri raz : String) (donors : List (ITypeAndAZ × Int)) :
    ∀ deficit : Int, (∀ p ∈ donors, 0 < p.2) →
      ∀ p ∈ (greedy_scan ri raz deficit donors).1, 0 < p.2 := by
  induction donors with
  | nil =>
    intro deficit _ p hp
    simp [greedy_scan] at hp
  | cons q rest ih =>
    intro deficit hpos p hp
    obtain ⟨dk, count⟩ := q
    have hcount : 0 < count := hpos (dk, count) (by simp)
    have hrest : ∀ r ∈ rest, 0 < r.2 := fun r hr => hpos r (by simp [hr])
    have hmc_le : min |deficit| count ≤ count := min_le_right _ _
    simp only [greedy_scan] at hp
    by_cases hm : dk.1 = ri
    · rw [if_pos hm] at hp
      by_cases hb : 0 ≤ deficit + min |deficit| count
      · rw [if_pos hb] at hp
        dsimp only at hp
        by_cases he : count = min |deficit| count
        · rw [if_pos he] at hp
          exact hrest p hp
        · rw [if_neg he] at hp
          rcases List.mem_cons.mp hp with h | h
          · subst h
            show 0 < count - min |deficit| count
            omega
          · exact hrest p h
      · rw [if_neg hb] at hp
        dsimp only at hp
        by_cases he : count = min |deficit| count
        · rw [if_pos he] at hp
          exact ih (deficit + min |deficit| count) hrest p hp
        · rw [if_neg he] at hp
          rcases List.mem_cons.mp hp with h | h
          · subst h
            show 0 < count - min |deficit| count
            omega
          · exact ih (deficit + min |deficit| count) hrest p h
    · rw [if_neg hm] at hp
      dsimp only at hp
      rcases List.mem_cons.mp hp with h | h
      · subst h
        exact hcount
      · exact ih deficit hrest p h

/-- The pass never draws more out of a key than the donors dict holds. -/
theorem greedy_pass_from_le (recepients : List (ITypeAndAZ × Int)) :
    ∀ donors : List (ITypeAndAZ × Int), (∀ p ∈ donors, 0 < p.2) →
      ∀ k : ITypeAndAZ, moved_from (greedy_pass recepients donors) k ≤ dsum donors k := by
  induction recepients with
  | nil =>
    intro donors hpos k
    simp only [greedy_pass, moved_from_nil]
    exact dsum_nonneg donors k fun p hp => le_of_lt (hpos p hp)
  | cons r rest ih =>
    intro donors hpos k
    obtain ⟨rk, deficit⟩ := r
    simp only [greedy_pass]
    rw [moved_from_append]
    have h1 := greedy_scan_conserves rk.1 rk.2 deficit donors k
    have hpos2 := greedy_scan_donors_pos rk.1 rk.2 donors deficit hpos
    have h2 := ih (greedy_scan rk.1 rk.2 deficit donors).1 hpos2 k
    linarith

/-- Every action of the pass delivers into some recipient key. -/
theorem greedy_pass_into_keys (recepients : List (ITypeAndAZ × Int)) :
    ∀ donors : List (ITypeAndAZ × Int), ∀ a ∈ greedy_pass recepients donors,
      (a.1, a.2.2.1) ∈ recepients.map Prod.fst := by
  induction recepients with
  | nil =>
    intro donors a ha
    simp [greedy_pass] at ha
  | cons r rest ih =>
    intro donors a ha
    obtain ⟨rk, deficit⟩ := r
    simp only [greedy_pass] at ha
    rcases List.mem_append.mp ha with h | h
    · have hd := greedy_scan_dests rk.1 rk.2 donors deficit a h
      simp only [List.map_cons, List.mem_cons]
      left
      rw [hd.1, hd.2]
    · simp only [List.map_cons, List.mem_cons]
      right
      exact ih _ a h

/-- The pass never delivers more into a recipient key than its deficit. -/
theorem greedy_pass_into_le (recepients : List (ITypeAndAZ × Int)) :
    ∀ donors : List (ITypeAndAZ × Int), (recepients.map Prod.fst).Nodup →
      (∀ p ∈ recepients, p.2 < 0) → (∀ p ∈ donors, 0 < p.2) →
      ∀ (k : ITypeAndAZ) (d : Int), (k, d) ∈ recepients →
        moved_into (greedy_pass recepients donors) k ≤ -d := by
  induction recepients with
  | nil =>
    intro donors _ _ _ k d hmem
    cases hmem
  | cons r rest ih =>
    intro donors hnd hneg hpos k d hmem
    obtain ⟨rk, deficit⟩ := r
    have hnd2 : (rest.map Prod.fst).Nodup := by
      rw [List.map_cons] at hnd
      exact (List.nodup_cons.mp hnd).2
    have hrk_notin : rk ∉ rest.map Prod.fst := by
      rw [List.map_cons] at hnd
      exact (List.nodup_cons.mp hnd).1
    have hneg2 : ∀ p ∈ rest, p.2 < 0 := fun q hq => hneg q (by simp [hq])
    simp only [greedy_pass]
    rw [moved_into_append]
    rcases List.mem_cons.mp hmem with h | h
    · have hk : k = rk := congrArg Prod.fst h
      have hd2 : d = deficit := congrArg Prod.snd h
      subst hk
      subst hd2
      have hdef : d < 0 := hneg (k, d) (by simp)
      have h1 := greedy_scan_into_le k.1 k.2 donors k d hdef hpos
      have h2 : moved_into
          (greedy_pass rest (greedy_scan k.1 k.2 d donors).1) k = 0 := by
        apply moved_into_eq_zero
        intro a ha hak
        have hk2 := greedy_pass_into_keys rest _ a ha
        rw [hak] at hk2
        exact hrk_notin hk2
      rw [h2]
      omega
    · have hk_ne : ¬ rk = k := by
        intro hc
        exact hrk_notin (hc ▸ List.mem_map_of_mem Prod.fst h)
      have h1 : moved_into (greedy_scan rk.1 rk.2 deficit donors).2 k = 0 := by
        apply moved_into_eq_zero
        intro a ha hak
        have hd := greedy_scan_dests rk.1 rk.2 donors deficit a ha
        apply hk_ne
        calc rk = (a.1, a.2.2.1) := by rw [hd.1, hd.2]
          _ = k := hak
      rw [h1, zero_add]
      exact ih _ hnd2 hneg2 (greedy_scan_donors_pos rk.1 rk.2 donors deficit hpos) k d h

theorem nodup_keys_filter (m : Inventory) (q : ITypeAndAZ × Int → Bool)
    (hm : (m.map Prod.fst).Nodup) : ((m.filter q).map Prod.fst).Nodup :=
  List.Nodup.sublist (List.Sublist.map Prod.fst (List.filter_sublist m)) hm

/-- C1: in any greedy plan, the total drawn out of a donor key is at
most its original surplus, and the total delivered into a recipient key
is at most its original deficit. -/
theorem greedy_distribution_bounds (mismatch : Inventory)
    (h : (mismatch.map Prod.fst).Nodup) :
    ∀ (k : ITypeAndAZ) (d : Int), (k, d) ∈ mismatch →
      (0 < d → moved_from (greedy_distribution mismatch) k ≤ d) ∧
      (d < 0 → moved_into (greedy_distribution mismatch) k ≤ -d) := by
  intro k d hmem
  have hrec_nd := nodup_keys_filter mismatch (fun p => decide (p.2 < 0)) h
  have hdon_nd := nodup_keys_filter mismatch (fun p => decide (0 < p.2)) h
  have hdon_pos : ∀ p ∈ mismatch.filter fun p => decide (0 < p.2), 0 < p.2 :=
    fun p hp => by simpa using List.of_mem_filter hp
  have hrec_neg : ∀ p ∈ mismatch.filter fun p => decide (p.2 < 0), p.2 < 0 :=
    fun p hp => by simpa using List.of_mem_filter hp
  constructor
  · intro hd
    have hmem_d : (k, d) ∈ mismatch.filter fun p => decide (0 < p.2) :=
      List.mem_filter.mpr ⟨hmem, by simpa using hd⟩
    have hsum : dsum (mismatch.filter fun p => decide (0 < p.2)) k = d := by
      rw [dsum_eq_dgetD _ k hdon_nd, dgetD, dget_of_mem_nodup hdon_nd hmem_d]
      rfl
    have hle := greedy_pass_from_le (mismatch.filter fun p => decide (p.2 < 0))
      (mismatch.filter fun p => decide (0 < p.2)) hdon_pos k
    calc moved_from (greedy_distribution mismatch) k
        = moved_from (greedy_pass (mismatch.filter fun p => decide (p.2 < 0))
            (mismatch.filter fun p => decide (0 < p.2))) k := rfl
      _ ≤ dsum (mismatch.filter fun p => decide (0 < p.2)) k := hle
      _ = d := hsum
  · intro hd
    have hmem_r : (k, d) ∈ mismatch.filter fun p => decide (p.2 < 0) :=
      List.mem_filter.mpr ⟨hmem, by simpa using hd⟩
    exact greedy_pass_into_le (mismatch.filter fun p => decide (p.2 < 0))
      (mismatch.filter fun p => decide (0 < p.2)) hrec_nd hrec_neg hdon_pos k d hmem_r

/-- Witness for C1 at the worked-scenario mismatch: the donor key gives
at most its surplus 6 and the recipient key receives at most its
deficit 6. -/
theorem greedy_distribution_bounds_witness :
    moved_from (greedy_distribution mismatch_demo) ("m4.large", "us-east-1a") ≤ 6 :=
  (greedy_distribution_bounds mismatch_demo (by decide) ("m4.large", "us-east-1a") 6
    (by decide)).1 (by decide)

/-! ## Plan-executor lemmas -/

theorem descs_for_nil (i : Nat) : descs_for [] i = 0 := rfl

theorem descs_for_cons (d : Desc) (descs : List Desc) (i : Nat) :
    descs_for (d :: descs) i = (if d.1 = i then d.2.2 else 0) + descs_for descs i := by
  by_cases h : d.1 = i <;> simp [descs_for, List.filter_cons, h]

theorem descs_for_eq_zero (descs : List Desc) (i : Nat) (h : ∀ d ∈ descs, d.1 ≠ i) :
    descs_for descs i = 0 := by
  induction descs with
  | nil => rfl
  | cons d rest ih =>
    rw [descs_for_cons, if_neg (h d (by simp)), ih fun x hx => h x (by simp [hx])]
    ring

theorem descs_for_nonneg (descs : List Desc) (i : Nat) (h : ∀ d ∈ descs, 0 < d.2.2) :
    0 ≤ descs_for descs i := by
  induction descs with
  | nil => simp [descs_for_nil]
  | cons d rest ih =>
    rw [descs_for_cons]
    have h1 := h d (by simp)
    have h2 := ih fun x hx => h x (by simp [hx])
    by_cases hd : d.1 = i <;> simp [hd] <;> omega

theorem descs_for_pos (descs : List Desc) (d : Desc) (hd : d ∈ descs)
    (hpos : ∀ x ∈ descs, 0 < x.2.2) : 0 < descs_for descs d.1 := by
  induction descs with
  | nil => cases hd
  | cons x rest ih =>
    rw [descs_for_cons]
    have hx := hpos x (by simp)
    have hrest : ∀ y ∈ rest, 0 < y.2.2 := fun y hy => hpos y (by simp [hy])
    rcases List.mem_cons.mp hd with h | h
    · subst h
      have := descs_for_nonneg rest d.1 hrest
      simp
      omega
    · have := ih h hrest
      by_cases hxi : x.1 = d.1 <;> simp [hxi] <;> omega

theorem descs_for_all_eq (descs : List Desc) (i : Nat) (h : ∀ d ∈ descs, d.1 = i) :
    descs_for descs i = (descs.map fun d => d.2.2).sum := by
  induction descs with
  | nil => rfl
  | cons d rest ih =>
    rw [descs_for_cons, if_pos (h d (by simp)), ih fun x hx => h x (by simp [hx])]
    simp

theorem exists_mem_of_descs_for_ne_zero (descs : List Desc) (i : Nat)
    (h : descs_for descs i ≠ 0) : ∃ d ∈ descs, d.1 = i := by
  by_contra hc
  push_neg at hc
  exact h (descs_for_eq_zero descs i hc)

/-- Facts about `donor_indices`: indices are in range, distinct, and point at
groups passing the donor filter (in particular with positive count). -/
theorem donor_indices_spec (groups : List RIGroup) (itype source_az : String) :
    (donor_indices groups itype source_az).Nodup ∧
    ∀ i ∈ donor_indices groups itype source_az,
      i < groups.length ∧ 0 < gcount groups i := by
  constructor
  · exact (List.nodup_range _).filter _
  · intro i hi
    have h1 := List.mem_of_mem_filter hi
    have h2 := List.of_mem_filter hi
    have hlen : i < groups.length := List.mem_range.mp h1
    refine ⟨hlen, ?_⟩
    cases hg : groups[i]? with
    | none =>
      rw [hg] at h2
      simp at h2
    | some g =>
      rw [hg] at h2
      simp only [Option.map_some', Option.getD_some, is_donor, Bool.and_eq_true,
        decide_eq_true_eq] at h2
      rw [gcount, hg]
      exact h2.2

theorem gid_of_gfields {G G0 : List RIGroup} {j : Nat} (h : gfields G j = gfields G0 j) :
    gid G j = gid G0 j := by
  unfold gfields at h
  unfold gid
  cases hx : G[j]? with
  | none =>
    rw [hx] at h
    cases hy : G0[j]? with
    | none => rfl
    | some b =>
      rw [hy] at h
      simp at h
  | some a =>
    rw [hx] at h
    cases hy : G0[j]? with
    | none =>
      rw [hy] at h
      simp at h
    | some b =>
      rw [hy] at h
      simp only [Option.map_some', Option.some.injEq, Prod.mk.injEq] at h
      simp [h.1]

theorem lt_length_of_getElem?_eq_some {G : List RIGroup} {i : Nat} {g : RIGroup}
    (hg : G[i]? = some g) : i < G.length := by
  by_contra hc
  push_neg at hc
  rw [List.getElem?_eq_none hc] at hg
  cases hg

theorem gcount_set (groups : List RIGroup) (i : Nat) (a : RIGroup)
    (hi : i < groups.length) (j : Nat) :
    gcount (groups.set i a) j = if i = j then a.instance_count else gcount groups j := by
  unfold gcount
  rw [List.getElem?_set]
  by_cases hij : i = j
  · subst hij
    simp [hi]
  · simp [hij]

theorem gfields_set (groups : List RIGroup) (i : Nat) (g a : RIGroup)
    (hg : groups[i]? = some g) (hf : (a.id, a.instance_type, a.availability_zone) =
      (g.id, g.instance_type, g.availability_zone)) (j : Nat) :
    gfields (groups.set i a) j = gfields groups j := by
  unfold gfields
  rw [List.getElem?_set]
  by_cases hij : i = j
  · subst hij
    simp [lt_length_of_getElem?_eq_some hg, hg, hf]
  · simp [hij]

theorem consume_donors_nil (groups : List RIGroup) (count : Int) (dest_az : String) :
    consume_donors groups [] count dest_az = (groups, []) := rfl

theorem consume_donors_not_pos (groups : List RIGroup) (i : Nat) (rest : List Nat)
    (count : Int) (dest_az : String) (hc : ¬ 0 < count) :
    consume_donors groups (i :: rest) count dest_az = (groups, []) := by
  simp only [consume_donors]
  rw [if_neg hc]

theorem consume_donors_oob (groups : List RIGroup) (i : Nat) (rest : List Nat)
    (count : Int) (dest_az : String) (hc : 0 < count) (hg : groups[i]? = none) :
    consume_donors groups (i :: rest) count dest_az = (groups, []) := by
  simp only [consume_donors]
  rw [if_pos hc, hg]

theorem consume_donors_cons (groups : List RIGroup) (i : Nat) (rest : List Nat)
    (count : Int) (dest_az : String) (g : RIGroup) (hc : 0 < count)
    (hg : groups[i]? = some g) :
    consume_donors groups (i :: rest) count dest_az =
      ((consume_donors (groups.set i
          { g with instance_count := g.instance_count - min count g.instance_count })
          rest (count - min count g.instance_count) dest_az).1,
        (i, dest_az, min count g.instance_count) ::
        (consume_donors (groups.set i
          { g with instance_count := g.instance_count - min count g.instance_count })
          rest (count - min count g.instance_count) dest_az).2) := by
  simp only [consume_donors]
  rw [if_pos hc, hg]

/-- Structural facts about one `while` pass over the donor snapshot:
the groups list keeps its length and immutable fields, every key
conserves count plus recorded moves, every descriptor points into the
snapshot and at the action destination, and a group count never goes
negative without being left untouched. -/
theorem consume_donors_spec (dest_az : String) (idxs : List Nat) :
    ∀ (groups : List RIGroup) (count : Int),
      (consume_donors groups idxs count dest_az).1.length = groups.length ∧
      (∀ j, gfields (consume_donors groups idxs count dest_az).1 j = gfields groups j) ∧
      (∀ j, gcount (consume_donors groups idxs count dest_az).1 j +
        descs_for (consume_donors groups idxs count dest_az).2 j = gcount groups j) ∧
      (∀ d ∈ (consume_donors groups idxs count dest_az).2, d.1 ∈ idxs ∧ d.2.1 = dest_az) ∧
      (∀ j, 0 ≤ gcount (consume_donors groups idxs count dest_az).1 j ∨
        gcount (consume_donors groups idxs count dest_az).1 j = gcount groups j) := by
  induction idxs with
  | nil =>
    intro groups count
    simp [consume_donors_nil, descs_for_nil]
  | cons i rest ih =>
    intro groups count
    by_cases hc : 0 < count
    · cases hg : groups[i]? with
      | none =>
        rw [consume_donors_oob groups i rest count dest_az hc hg]
        simp [descs_for_nil]
      | some g =>
        have hilen := lt_length_of_getElem?_eq_some hg
        have hgc : gcount groups i = g.instance_count := by
          unfold gcount
          rw [hg]
          rfl
        rw [consume_donors_cons groups i rest count dest_az g hc hg]
        set mc := min count g.instance_count with hmc
        set g2 : RIGroup := { g with instance_count := g.instance_count - mc } with hg2
        set groups1 := groups.set i g2 with hgroups1
        have hlen1 : groups1.length = groups.length := List.length_set groups i g2
        have hcnt1i : gcount groups1 i = g.instance_count - mc := by
          rw [hgroups1, gcount_set groups i g2 hilen i, if_pos rfl, hg2]
        have hcnt1ne : ∀ j, ¬ i = j → gcount groups1 j = gcount groups j := fun j hij => by
          rw [hgroups1, gcount_set groups i g2 hilen j, if_neg hij]
        have hfld1 : ∀ j, gfields groups1 j = gfields groups j := fun j => by
          rw [hgroups1]
          exact gfields_set groups i g g2 hg (by rw [hg2]) j
        obtain ⟨ihlen, ihfld, ihcnt, ihval, ihnn⟩ := ih groups1 (count - mc)
        refine ⟨?_, ?_, ?_, ?_, ?_⟩
        · dsimp only
          rw [ihlen, hlen1]
        · intro j
          dsimp only
          rw [ihfld j, hfld1 j]
        · intro j
          dsimp only
          rw [descs_for_cons]
          have h1 := ihcnt j
          by_cases hij : i = j
          · subst hij
            rw [hcnt1i] at h1
            rw [if_pos rfl]
            dsimp only
            omega
          · rw [hcnt1ne j hij] at h1
            rw [if_neg hij]
            omega
        · intro d hd
          dsimp only at hd
          rcases List.mem_cons.mp hd with h | h
          · subst h
            exact ⟨by simp, rfl⟩
          · obtain ⟨h1, h2⟩ := ihval d h
            exact ⟨by simp [h1], h2⟩
        · intro j
          dsimp only
          rcases ihnn j with h | h
          · exact Or.inl h
          · rw [h]
            by_cases hij : i = j
            · subst hij
              rw [hcnt1i]
              left
              omega
            · rw [hcnt1ne j hij]
              right
              rfl
    · rw [consume_donors_not_pos groups i rest count dest_az hc]
      simp [descs_for_nil]

/-- Every move recorded by one pass is positive: the snapshot only
holds groups with positive count, each is visited once, and the pass
only runs while the action count is positive. -/
theorem consume_donors_pos (dest_az : String) (idxs : List Nat) :
    ∀ (groups : List RIGroup) (count : Int), idxs.Nodup →
      (∀ i ∈ idxs, 0 < gcount groups i) →
      ∀ d ∈ (consume_donors groups idxs count dest_az).2, 0 < d.2.2 := by
  induction idxs with
  | nil =>
    intro groups count _ _ d hd
    rw [consume_donors_nil] at hd
    cases hd
  | cons i rest ih =>
    intro groups count hnd hpos d hd
    by_cases hc : 0 < count
    · cases hg : groups[i]? with
      | none =>
        rw [consume_donors_oob groups i rest count dest_az hc hg] at hd
        cases hd
      | some g =>
        have hilen := lt_length_of_getElem?_eq_some hg
        have hgc : gcount groups i = g.instance_count := by
          unfold gcount
          rw [hg]
          rfl
        have hgpos : 0 < g.instance_count := by
          have := hpos i (by simp)
          omega
        rw [consume_donors_cons groups i rest count dest_az g hc hg] at hd
        dsimp only at hd
        rcases List.mem_cons.mp hd with h | h
        · subst h
          show 0 < min count g.instance_count
          exact lt_min hc hgpos
        · have hnd2 : rest.Nodup := (List.nodup_cons.mp hnd).2
          have hni : i ∉ rest := (List.nodup_cons.mp hnd).1
          refine ih (groups.set i
            { g with instance_count := g.instance_count - min count g.instance_count })
            (count - min count g.instance_count) hnd2 ?_ d h
          intro j hj
          rw [gcount_set groups i _ hilen j, if_neg ?_]
          · exact hpos j (by simp [hj])
          · intro hij
            exact hni (hij ▸ hj)
    · rw [consume_donors_not_pos groups i rest count dest_az hc] at hd
      cases hd

theorem descs_for_append (d1 d2 : List Desc) (i : Nat) :
    descs_for (d1 ++ d2) i = descs_for d1 i + descs_for d2 i := by
  induction d1 with
  | nil => simp [descs_for_nil]
  | cons d rest ih =>
    rw [List.cons_append, descs_for_cons, descs_for_cons, ih]
    ring

theorem mods_moves_nil (j : Nat) : mods_moves [] j = 0 := rfl

theorem mods_moves_cons (kv : String × List Desc) (mods : Mods) (j : Nat) :
    mods_moves (kv :: mods) j = descs_for kv.2 j + mods_moves mods j := by
  simp [mods_moves]

theorem any_key_iff (mods : Mods) (key : String) :
    mods.any (fun kv => kv.1 == key) = true ↔ key ∈ mods.map Prod.fst := by
  rw [List.any_eq_true]
  constructor
  · rintro ⟨kv, hkv, hk⟩
    exact eq_of_beq hk ▸ List.mem_map_of_mem Prod.fst hkv
  · intro h
    rcases List.mem_map.mp h with ⟨kv, hkv, hk⟩
    exact ⟨kv, hkv, beq_iff_eq.mpr hk⟩

theorem mods_append_absent (mods : Mods) (key : String) (d : Desc)
    (h : ¬ mods.any (fun kv => kv.1 == key) = true) :
    mods_append mods key d = mods ++ [(key, [d])] := by
  unfold mods_append
  rw [if_neg h]

theorem mods_append_cons_ne (kv : String × List Desc) (mods : Mods) (key : String) (d : Desc)
    (h : ¬ kv.1 == key) :
    mods_append (kv :: mods) key d = kv :: mods_append mods key d := by
  unfold mods_append
  by_cases hany : mods.any (fun kv => kv.1 == key) = true
  · have h2 : (kv :: mods).any (fun kv => kv.1 == key) = true := by
      rw [List.any_cons, hany]
      simp
    rw [if_pos h2, if_pos hany, List.map_cons, if_neg h]
  · have h2 : ¬ (kv :: mods).any (fun kv => kv.1 == key) = true := by
      rw [List.any_cons]
      simp only [Bool.or_eq_true]
      rintro (hc | hc)
      · exact h hc
      · exact hany hc
    rw [if_neg h2, if_neg hany, List.cons_append]

theorem map_update_id (mods : Mods) (key : String) (d : Desc)
    (hnotin : key ∉ mods.map Prod.fst) :
    (mods.map fun kv => if kv.1 == key then (kv.1, kv.2 ++ [d]) else kv) = mods := by
  induction mods with
  | nil => rfl
  | cons kv rest ih =>
    have h1 : ¬ kv.1 == key := by
      intro hc
      exact hnotin (by simp [eq_of_beq hc])
    have h2 : key ∉ rest.map Prod.fst := fun hc => hnotin (by simp [hc])
    rw [List.map_cons, if_neg h1, ih h2]

theorem mods_append_cons_eq (kv : String × List Desc) (mods : Mods) (key : String) (d : Desc)
    (h : kv.1 == key) (hnotin : key ∉ mods.map Prod.fst) :
    mods_append (kv :: mods) key d = (kv.1, kv.2 ++ [d]) :: mods := by
  unfold mods_append
  have hany : (kv :: mods).any (fun kv => kv.1 == key) = true := by
    rw [List.any_cons, h]
    simp
  rw [if_pos hany, List.map_cons, if_pos h, map_update_id mods key d hnotin]

theorem mods_append_moves (mods : Mods) (key : String) (d : Desc) (j : Nat)
    (hnd : (mods.map Prod.fst).Nodup) :
    mods_moves (mods_append mods key d) j =
      mods_moves mods j + (if d.1 = j then d.2.2 else 0) := by
  induction mods with
  | nil =>
    rw [mods_append_absent [] key d (by simp), List.nil_append, mods_moves_cons,
      mods_moves_nil, descs_for_cons, descs_for_nil]
    ring
  | cons kv rest ih =>
    have hnd2 : (rest.map Prod.fst).Nodup := (List.nodup_cons.mp (by simpa using hnd)).2
    have hkvnotin : kv.1 ∉ rest.map Prod.fst := (List.nodup_cons.mp (by simpa using hnd)).1
    by_cases hk : kv.1 == key
    · have hkey : kv.1 = key := eq_of_beq hk
      rw [mods_append_cons_eq kv rest key d hk (hkey ▸ hkvnotin), mods_moves_cons,
        mods_moves_cons]
      dsimp only
      rw [descs_for_append, descs_for_cons, descs_for_nil]
      ring
    · rw [mods_append_cons_ne kv rest key d hk, mods_moves_cons, mods_moves_cons, ih hnd2]
      ring

theorem mods_append_keys_mem (mods : Mods) (key : String) (d : Desc) :
    ∀ x, x ∈ (mods_append mods key d).map Prod.fst ↔ x ∈ mods.map Prod.fst ∨ x = key := by
  intro x
  unfold mods_append
  by_cases hany : mods.any (fun kv => kv.1 == key) = true
  · rw [if_pos hany]
    have hkeys : (mods.map fun kv => if kv.1 == key then (kv.1, kv.2 ++ [d]) else kv).map
        Prod.fst = mods.map Prod.fst := by
      rw [List.map_map]
      apply List.map_congr_left
      intro kv _
      by_cases h : kv.1 = key <;> simp [h]
    rw [hkeys]
    constructor
    · exact Or.inl
    · rintro (h | h)
      · exact h
      · exact h ▸ (any_key_iff mods key).mp hany
  · rw [if_neg hany, List.map_append]
    simp [List.mem_append, eq_comm]

theorem mods_append_keys_nodup (mods : Mods) (key : String) (d : Desc)
    (hnd : (mods.map Prod.fst).Nodup) :
    ((mods_append mods key d).map Prod.fst).Nodup := by
  unfold mods_append
  by_cases hany : mods.any (fun kv => kv.1 == key) = true
  · rw [if_pos hany]
    have hkeys : (mods.map fun kv => if kv.1 == key then (kv.1, kv.2 ++ [d]) else kv).map
        Prod.fst = mods.map Prod.fst := by
      rw [List.map_map]
      apply List.map_congr_left
      intro kv _
      by_cases h : kv.1 = key <;> simp [h]
    rw [hkeys]
    exact hnd
  · rw [if_neg hany, List.map_append]
    have hnotin : key ∉ mods.map Prod.fst := fun hc => hany ((any_key_iff mods key).mpr hc)
    simp [List.nodup_append, hnd, hnotin]

theorem mods_append_forall {Q : String → Desc → Prop} (mods : Mods) (key : String) (d : Desc)
    (hP : ∀ kv ∈ mods, ∀ x ∈ kv.2, Q kv.1 x) (hd : Q key d) :
    ∀ kv ∈ mods_append mods key d, ∀ x ∈ kv.2, Q kv.1 x := by
  intro kv hkv x hx
  unfold mods_append at hkv
  by_cases hany : mods.any (fun kv => kv.1 == key) = true
  · rw [if_pos hany] at hkv
    rcases List.mem_map.mp hkv with ⟨kv0, hkv0, hupd⟩
    by_cases hk : kv0.1 == key
    · rw [if_pos hk] at hupd
      subst hupd
      rcases List.mem_append.mp hx with h | h
      · exact hP kv0 hkv0 x h
      · have hxd : x = d := by simpa using h
        subst hxd
        show Q kv0.1 x
        rw [eq_of_beq hk]
        exact hd
    · rw [if_neg hk] at hupd
      subst hupd
      exact hP kv0 hkv0 x hx
  · rw [if_neg hany] at hkv
    rcases List.mem_append.mp hkv with h | h
    · exact hP kv h x hx
    · have hkv2 : kv = (key, [d]) := by simpa using h
      subst hkv2
      have hxd : x = d := by simpa using hx
      subst hxd
      exact hd

theorem mods_append_ne_nil (mods : Mods) (key : String) (d : Desc)
    (h : ∀ kv ∈ mods, kv.2 ≠ []) :
    ∀ kv ∈ mods_append mods key d, kv.2 ≠ [] := by
  intro kv hkv
  unfold mods_append at hkv
  by_cases hany : mods.any (fun kv => kv.1 == key) = true
  · rw [if_pos hany] at hkv
    rcases List.mem_map.mp hkv with ⟨kv0, hkv0, hupd⟩
    by_cases hk : kv0.1 == key
    · rw [if_pos hk] at hupd
      subst hupd
      simp
    · rw [if_neg hk] at hupd
      subst hupd
      exact h kv0 hkv0
  · rw [if_neg hany] at hkv
    rcases List.mem_append.mp hkv with hm | hm
    · exact h kv hm
    · have hkv2 : kv = (key, [d]) := by simpa using hm
      subst hkv2
      simp

theorem record_descs_nil (groups : List RIGroup) (mods : Mods) :
    record_descs groups mods [] = mods := rfl

theorem record_descs_cons (groups : List RIGroup) (mods : Mods) (d : Desc)
    (descs : List Desc) :
    record_descs groups mods (d :: descs) =
      record_descs groups (mods_append mods (gid groups d.1) d) descs := rfl

theorem record_descs_spec (groups : List RIGroup) (descs : List Desc) :
    ∀ mods : Mods, (mods.map Prod.fst).Nodup →
      ((record_descs groups mods descs).map Prod.fst).Nodup ∧
      (∀ j, mods_moves (record_descs groups mods descs) j =
        mods_moves mods j + descs_for descs j) ∧
      (∀ x, x ∈ (record_descs groups mods descs).map Prod.fst ↔
        x ∈ mods.map Prod.fst ∨ ∃ d ∈ descs, gid groups d.1 = x) := by
  induction descs with
  | nil =>
    intro mods hnd
    exact ⟨hnd, fun j => by simp [record_descs_nil, descs_for_nil],
      fun x => by simp [record_descs_nil]⟩
  | cons d rest ih =>
    intro mods hnd
    rw [record_descs_cons]
    have hnd2 := mods_append_keys_nodup mods (gid groups d.1) d hnd
    obtain ⟨h1, h2, h3⟩ := ih (mods_append mods (gid groups d.1) d) hnd2
    refine ⟨h1, ?_, ?_⟩
    · intro j
      rw [h2 j, mods_append_moves mods _ d j hnd, descs_for_cons]
      ring
    · intro x
      rw [h3 x, mods_append_keys_mem mods _ d x]
      constructor
      · rintro ((h | h) | h)
        · exact Or.inl h
        · exact Or.inr ⟨d, by simp, h.symm⟩
        · rcases h with ⟨d2, hd2, hx⟩
          exact Or.inr ⟨d2, by simp [hd2], hx⟩
      · rintro (h | ⟨d2, hd2, hx⟩)
        · exact Or.inl (Or.inl h)
        · rcases List.mem_cons.mp hd2 with h | h
          · subst h
            exact Or.inl (Or.inr hx.symm)
          · exact Or.inr ⟨d2, h, hx⟩

theorem record_descs_forall {Q : String → Desc → Prop} (groups : List RIGroup)
    (descs : List Desc) : ∀ mods : Mods,
    (∀ kv ∈ mods, ∀ x ∈ kv.2, Q kv.1 x) → (∀ d ∈ descs, Q (gid groups d.1) d) →
    ∀ kv ∈ record_descs groups mods descs, ∀ x ∈ kv.2, Q kv.1 x := by
  induction descs with
  | nil =>
    intro mods hP _ kv hkv
    rw [record_descs_nil] at hkv
    exact hP kv hkv
  | cons d rest ih =>
    intro mods hP hd kv hkv
    rw [record_descs_cons] at hkv
    refine ih _ ?_ (fun x hx => hd x (by simp [hx])) kv hkv
    exact mods_append_forall mods (gid groups d.1) d hP (hd d (by simp))

theorem record_descs_ne_nil (groups : List RIGroup) (descs : List Desc) :
    ∀ mods : Mods, (∀ kv ∈ mods, kv.2 ≠ []) →
      ∀ kv ∈ record_descs groups mods descs, kv.2 ≠ [] := by
  induction descs with
  | nil =>
    intro mods h kv hkv
    rw [record_descs_nil] at hkv
    exact h kv hkv
  | cons d rest ih =>
    intro mods h kv hkv
    rw [record_descs_cons] at hkv
    exact ih _ (mods_append_ne_nil mods (gid groups d.1) d h) kv hkv

theorem exists_batch_of_mods_moves_ne_zero (mods : Mods) (j : Nat)
    (h : mods_moves mods j ≠ 0) : ∃ kv ∈ mods, descs_for kv.2 j ≠ 0 := by
  induction mods with
  | nil =>
    rw [mods_moves_nil] at h
    cases h rfl
  | cons kv rest ih =>
    rw [mods_moves_cons] at h
    by_cases h1 : descs_for kv.2 j = 0
    · rw [h1, zero_add] at h
      rcases ih h with ⟨kv2, hkv2, hkv2ne⟩
      exact ⟨kv2, by simp [hkv2], hkv2ne⟩
    · exact ⟨kv, by simp, h1⟩

/-- The central invariant of `execute_plan`'s batching loop: lengths and
immutable fields of the groups are preserved, per-index count plus
recorded moves is conserved, the modifications dict has distinct keys,
every recorded descriptor points at a valid index whose group id is its
batch key and carries a positive move, batches are nonempty, and no
group count ever goes negative without being left untouched. -/
theorem build_modifications_spec (plan : List Action) :
    ∀ (groups : List RIGroup) (mods : Mods), (mods.map Prod.fst).Nodup →
      (∀ kv ∈ mods, ∀ x ∈ kv.2, x.1 < groups.length ∧ gid groups x.1 = kv.1 ∧ 0 < x.2.2) →
      (∀ kv ∈ mods, kv.2 ≠ []) →
      (build_modifications groups mods plan).1.length = groups.length ∧
      (∀ j, gfields (build_modifications groups mods plan).1 j = gfields groups j) ∧
      (∀ j, gcount (build_modifications groups mods plan).1 j +
          mods_moves (build_modifications groups mods plan).2 j =
        gcount groups j + mods_moves mods j) ∧
      ((build_modifications groups mods plan).2.map Prod.fst).Nodup ∧
      (∀ kv ∈ (build_modifications groups mods plan).2, ∀ x ∈ kv.2,
        x.1 < groups.length ∧ gid groups x.1 = kv.1 ∧ 0 < x.2.2) ∧
      (∀ kv ∈ (build_modifications groups mods plan).2, kv.2 ≠ []) ∧
      (∀ j, 0 ≤ gcount (build_modifications groups mods plan).1 j ∨
        gcount (build_modifications groups mods plan).1 j = gcount groups j) := by
  induction plan with
  | nil =>
    intro groups mods hnd hprop hne
    exact ⟨rfl, fun j => rfl, fun j => rfl, hnd, hprop, hne, fun j => Or.inr rfl⟩
  | cons action rest ih =>
    intro groups mods hnd hprop hne
    simp only [build_modifications]
    obtain ⟨hidxnd, hidx⟩ := donor_indices_spec groups action.1 action.2.1
    obtain ⟨hclen, hcfld, hccnt, hcval, hcnn⟩ :=
      consume_donors_spec action.2.2.1 (donor_indices groups action.1 action.2.1) groups
        action.2.2.2
    have hcpos := consume_donors_pos action.2.2.1 (donor_indices groups action.1 action.2.1)
      groups action.2.2.2 hidxnd (fun i hi => (hidx i hi).2)
    set C := consume_donors groups (donor_indices groups action.1 action.2.1)
      action.2.2.2 action.2.2.1 with hC
    obtain ⟨hrnd, hrmov, hrkeys⟩ := record_descs_spec C.1 C.2 mods hnd
    have hgid1 : ∀ j, gid C.1 j = gid groups j := fun j => gid_of_gfields (hcfld j)
    have hprop1 : ∀ kv ∈ record_descs C.1 mods C.2, ∀ x ∈ kv.2,
        x.1 < C.1.length ∧ gid C.1 x.1 = kv.1 ∧ 0 < x.2.2 := by
      refine @record_descs_forall
        (fun key x => x.1 < C.1.length ∧ gid C.1 x.1 = key ∧ 0 < x.2.2) C.1 C.2 mods ?_ ?_
      · intro kv hkv x hx
        obtain ⟨h1, h2, h3⟩ := hprop kv hkv x hx
        exact ⟨by rw [hclen]; exact h1, by rw [hgid1]; exact h2, h3⟩
      · intro d hd
        obtain ⟨h1, h2⟩ := hcval d hd
        exact ⟨by rw [hclen]; exact (hidx d.1 h1).1, rfl, hcpos d hd⟩
    have hne1 : ∀ kv ∈ record_descs C.1 mods C.2, kv.2 ≠ [] :=
      record_descs_ne_nil C.1 C.2 mods hne
    obtain ⟨ihlen, ihfld, ihcnt, ihnd, ihprop, ihne, ihnn⟩ :=
      ih C.1 (record_descs C.1 mods C.2) hrnd hprop1 hne1
    refine ⟨?_, ?_, ?_, ihnd, ?_, ihne, ?_⟩
    · rw [ihlen, hclen]
    · intro j
      rw [ihfld j, hcfld j]
    · intro j
      have h1 := ihcnt j
      have h2 := hrmov j
      have h3 := hccnt j
      rw [h2] at h1
      omega
    · intro kv hkv x hx
      obtain ⟨h1, h2, h3⟩ := ihprop kv hkv x hx
      exact ⟨by rw [← hclen]; exact h1, by rw [← hgid1]; exact h2, h3⟩
    · intro j
      rcases ihnn j with h | h
      · exact Or.inl h
      · rw [h]
        rcases hcnn j with h2 | h2
        · exact Or.inl h2
        · exact Or.inr h2

theorem gid_inj (groups : List RIGroup) (hids : (groups.map RIGroup.id).Nodup)
    {i j : Nat} (hi : i < groups.length) (hj : j < groups.length)
    (h : gid groups i = gid groups j) : i = j := by
  have hi2 : i < (groups.map RIGroup.id).length := by
    rw [List.length_map]
    exact hi
  apply List.getElem?_inj hi2 hids
  rw [List.getElem?_map, List.getElem?_map, List.getElem?_eq_getElem hi,
    List.getElem?_eq_getElem hj]
  have h1 : gid groups i = groups[i].id := by
    unfold gid
    rw [List.getElem?_eq_getElem hi]
    rfl
  have h2 : gid groups j = groups[j].id := by
    unfold gid
    rw [List.getElem?_eq_getElem hj]
    rfl
  rw [h1, h2] at h
  simp [h]

theorem find_by_id (groups : List RIGroup) (hids : (groups.map RIGroup.id).Nodup) :
    ∀ (i : Nat) (g : RIGroup), groups[i]? = some g →
      groups.find? (fun x => x.id == g.id) = some g := by
  induction groups with
  | nil =>
    intro i g hg
    rw [List.getElem?_nil] at hg
    cases hg
  | cons a rest ih =>
    intro i g hg
    rw [List.map_cons] at hids
    have hand := List.nodup_cons.mp hids
    cases i with
    | zero =>
      have hag : a = g := by simpa using hg
      subst hag
      rw [List.find?_cons_of_pos]
      simp
    | succ n =>
      have hgr : rest[n]? = some g := by simpa using hg
      have hgmem : g ∈ rest := List.getElem?_mem hgr
      have hne : ¬ a.id == g.id := by
        intro hc
        exact hand.1 (eq_of_beq hc ▸ List.mem_map_of_mem RIGroup.id hgmem)
      rw [List.find?_cons_of_neg]
      · exact ih hand.2 n g hgr
      · exact hne

theorem original_capacity_eq (groups : List RIGroup)
    (hids : (groups.map RIGroup.id).Nodup) (i : Nat) (g : RIGroup)
    (hg : groups[i]? = some g) : original_capacity groups g.id = g.instance_count := by
  unfold original_capacity
  rw [find_by_id groups hids i g hg]
  rfl

theorem mods_moves_eq_zero_of (mods : Mods) (j : Nat)
    (h : ∀ kv ∈ mods, descs_for kv.2 j = 0) : mods_moves mods j = 0 := by
  induction mods with
  | nil => rfl
  | cons kv rest ih =>
    rw [mods_moves_cons, h kv (by simp), ih fun kv2 hkv2 => h kv2 (by simp [hkv2])]
    ring

theorem mods_moves_eq_batch (mods : Mods) (kv : String × List Desc) (j : Nat)
    (hkv : kv ∈ mods) (hnd : (mods.map Prod.fst).Nodup)
    (hzero : ∀ kv2 ∈ mods, kv2.1 ≠ kv.1 → descs_for kv2.2 j = 0) :
    mods_moves mods j = descs_for kv.2 j := by
  induction mods with
  | nil => cases hkv
  | cons kv0 rest ih =>
    rw [List.map_cons] at hnd
    have hand := List.nodup_cons.mp hnd
    rw [mods_moves_cons]
    rcases List.mem_cons.mp hkv with h | h
    · subst h
      have hz : mods_moves rest j = 0 := by
        apply mods_moves_eq_zero_of
        intro kv2 hkv2
        refine hzero kv2 (by simp [hkv2]) ?_
        intro hc
        exact hand.1 (hc ▸ List.mem_map_of_mem Prod.fst hkv2)
      rw [hz]
      ring
    · have hne0 : kv0.1 ≠ kv.1 := by
        intro hc
        exact hand.1 (hc ▸ List.mem_map_of_mem Prod.fst h)
      rw [hzero kv0 (by simp) hne0, ih h hand.2
        fun kv2 hkv2 hne2 => hzero kv2 (by simp [hkv2]) hne2]
      ring

theorem mods_moves_nonneg (mods : Mods) (j : Nat)
    (hpos : ∀ kv ∈ mods, ∀ x ∈ kv.2, 0 < x.2.2) : 0 ≤ mods_moves mods j := by
  induction mods with
  | nil => simp [mods_moves_nil]
  | cons kv rest ih =>
    rw [mods_moves_cons]
    have h1 := descs_for_nonneg kv.2 j fun x hx => hpos kv (by simp) x hx
    have h2 := ih fun kv2 hkv2 x hx => hpos kv2 (by simp [hkv2]) x hx
    omega

theorem mods_moves_ge (mods : Mods) (kv : String × List Desc) (j : Nat) (hkv : kv ∈ mods)
    (hpos : ∀ kv2 ∈ mods, ∀ x ∈ kv2.2, 0 < x.2.2) :
    descs_for kv.2 j ≤ mods_moves mods j := by
  induction mods with
  | nil => cases hkv
  | cons kv0 rest ih =>
    rw [mods_moves_cons]
    have h0 := descs_for_nonneg kv0.2 j fun x hx => hpos kv0 (by simp) x hx
    rcases List.mem_cons.mp hkv with h | h
    · subst h
      have := mods_moves_nonneg rest j fun kv2 hkv2 x hx => hpos kv2 (by simp [hkv2]) x hx
      omega
    · have := ih h fun kv2 hkv2 x hx => hpos kv2 (by simp [hkv2]) x hx
      omega

theorem configs_sum_append (c1 c2 : List (String × Int)) :
    configs_sum (c1 ++ c2) = configs_sum c1 + configs_sum c2 := by
  simp [configs_sum]

/-- The target configurations of a batch whose descriptors all hit one
group: one configuration per move plus the remainder when the group
still holds capacity. -/
theorem target_configurations_batch (final : List RIGroup) (descs : List Desc) (i : Nat)
    (g : RIGroup) (hne : descs ≠ []) (hall : ∀ d ∈ descs, d.1 = i)
    (hg : final[i]? = some g) :
    configs_sum (target_configurations final descs) =
      (descs.map fun d => d.2.2).sum +
        (if 0 < g.instance_count then g.instance_count else 0) := by
  unfold target_configurations
  cases hlast : descs.getLast? with
  | none =>
    exact absurd (List.getLast?_eq_none_iff.mp hlast) hne
  | some last =>
    have hlast_mem : last ∈ descs := by
      obtain ⟨hne2, heq⟩ := List.mem_getLast?_eq_getLast (Option.mem_def.mpr hlast)
      rw [heq]
      exact List.getLast_mem hne2
    have hli : last.1 = i := hall last hlast_mem
    dsimp only
    rw [hli, hg]
    dsimp only
    have hmap : configs_sum (descs.map fun d => (d.2.1, d.2.2)) =
        (descs.map fun d => d.2.2).sum := by
      simp [configs_sum, List.map_map]
      rfl
    by_cases hp : 0 < g.instance_count
    · rw [if_pos hp, if_pos hp, configs_sum_append, hmap]
      simp [configs_sum]
    · rw [if_neg hp, if_neg hp, hmap]
      ring

theorem gcount_nonneg_of_cap (groups : List RIGroup)
    (hcap : ∀ g ∈ groups, 0 ≤ g.instance_count) (j : Nat) : 0 ≤ gcount groups j := by
  unfold gcount
  cases hg : groups[j]? with
  | none => simp
  | some g =>
    have := hcap g (List.getElem?_mem hg)
    simpa using this

/-- In dry-run mode every batch yields the sentinel. -/
theorem execute_plan_dry (groups : List RIGroup) (plan : List Action) :
    ∀ r ∈ execute_plan groups plan false, r = ModResult.dryRun := by
  intro r hr
  unfold execute_plan at hr
  rcases List.mem_map.mp hr with ⟨kv, _, h⟩
  rw [← h]
  rfl

theorem api_calls_map_true (final : List RIGroup) (l : Mods)
    (hid : ∀ kv ∈ l, ∀ x ∈ kv.2, gid final x.1 = kv.1)
    (hne : ∀ kv ∈ l, kv.2 ≠ []) :
    api_calls (l.map fun kv => move_reserved_instances final kv.2 true) =
      l.map Prod.fst := by
  induction l with
  | nil => rfl
  | cons kv rest ih =>
    cases hkv2 : kv.2 with
    | nil => exact absurd hkv2 (hne kv (by simp))
    | cons x xs =>
      have hhead : move_reserved_instances final kv.2 true =
          ModResult.api (gid final x.1) (target_configurations final kv.2) := by
        rw [hkv2]
        rfl
      rw [List.map_cons, hhead]
      show (gid final x.1) :: api_calls (rest.map fun kv =>
        move_reserved_instances final kv.2 true) = kv.1 :: rest.map Prod.fst
      rw [hid kv (by simp) x (by simp [hkv2]),
        ih (fun kv2 hkv2 y hy => hid kv2 (by simp [hkv2]) y hy)
          (fun kv2 hkv2 => hne kv2 (by simp [hkv2]))]

/-! ## Claim theorems: plan executor -/

/-- C2: `execute_plan` conserves each touched group capacity: for every
batch built from the plan, the move counts of its target configurations
(remainder included) sum to the donor group original capacity. -/
theorem execute_plan_conservation (groups : List RIGroup) (plan : List Action)
    (hids : (groups.map RIGroup.id).Nodup) :
    ∀ kv ∈ (build_modifications groups [] plan).2,
      configs_sum (target_configurations (build_modifications groups [] plan).1 kv.2) =
        original_capacity groups kv.1 := by
  intro kv hkv
  obtain ⟨hlen, hfld, hcnt, hnd, hprop, hne, hnn⟩ := build_modifications_spec plan groups []
    (by simp) (by simp) (by simp)
  obtain ⟨d0, hd0⟩ := List.exists_mem_of_ne_nil kv.2 (hne kv hkv)
  obtain ⟨hd0len, hd0gid, hd0pos⟩ := hprop kv hkv d0 hd0
  have hall : ∀ d ∈ kv.2, d.1 = d0.1 := by
    intro d hd
    obtain ⟨hdl, hdg, _⟩ := hprop kv hkv d hd
    exact gid_inj groups hids hdl hd0len (by rw [hdg, hd0gid])
  have hzero : ∀ kv2 ∈ (build_modifications groups [] plan).2, kv2.1 ≠ kv.1 →
      descs_for kv2.2 d0.1 = 0 := by
    intro kv2 hkv2 hne2
    apply descs_for_eq_zero
    intro d hd hdi
    obtain ⟨hdl, hdg, _⟩ := hprop kv2 hkv2 d hd
    apply hne2
    rw [← hdg, hdi, hd0gid]
  have hmoves := mods_moves_eq_batch (build_modifications groups [] plan).2 kv d0.1 hkv
    hnd hzero
  have hbatch := descs_for_all_eq kv.2 d0.1 hall
  have hfinlen : d0.1 < (build_modifications groups [] plan).1.length := by
    rw [hlen]
    exact hd0len
  have hgfin : (build_modifications groups [] plan).1[d0.1]? =
      some ((build_modifications groups [] plan).1[d0.1]) :=
    List.getElem?_eq_getElem hfinlen
  have hg0 : groups[d0.1]? = some groups[d0.1] := List.getElem?_eq_getElem hd0len
  have htc := target_configurations_batch (build_modifications groups [] plan).1 kv.2 d0.1
    ((build_modifications groups [] plan).1[d0.1]) (hne kv hkv) hall hgfin
  have hg1 : gcount (build_modifications groups [] plan).1 d0.1 =
      ((build_modifications groups [] plan).1[d0.1]).instance_count := by
    unfold gcount
    rw [hgfin]
    rfl
  have hg2 : gcount groups d0.1 = (groups[d0.1]).instance_count := by
    unfold gcount
    rw [hg0]
    rfl
  have hpos_moves : 0 < mods_moves (build_modifications groups [] plan).2 d0.1 := by
    rw [hmoves]
    exact descs_for_pos kv.2 d0 hd0 fun x hx => (hprop kv hkv x hx).2.2
  have hz : mods_moves ([] : Mods) d0.1 = 0 := rfl
  have hc := hcnt d0.1
  have hfin_nonneg : 0 ≤ gcount (build_modifications groups [] plan).1 d0.1 := by
    rcases hnn d0.1 with h | h
    · exact h
    · omega
  have hkvid : kv.1 = (groups[d0.1]).id := by
    rw [← hd0gid]
    unfold gid
    rw [hg0]
    rfl
  have hoc : original_capacity groups kv.1 = (groups[d0.1]).instance_count := by
    rw [hkvid]
    exact original_capacity_eq groups hids d0.1 groups[d0.1] hg0
  rw [htc, hoc, ← hbatch]
  by_cases hp : 0 < ((build_modifications groups [] plan).1[d0.1]).instance_count
  · rw [if_pos hp]
    omega
  · rw [if_neg hp]
    omega

/-- Witness for C2: the two-action demo plan touches groups ri-1 and
ri-2; the ri-2 batch (two moves plus remainder) sums to its original
capacity. -/
theorem execute_plan_conservation_witness :
    configs_sum (target_configurations (build_modifications groups_demo [] plan_demo).1
        [(1, "us-east-1b", 2), (1, "us-east-1c", 2)]) =
      original_capacity groups_demo "ri-2" :=
  execute_plan_conservation groups_demo plan_demo (by decide)
    ("ri-2", [(1, "us-east-1b", 2), (1, "us-east-1c", 2)]) (by decide)

/-- C4: in dry-run mode no external modification call is made (every
result is the sentinel); in live mode exactly one call is made per
distinct donor group id touched by the plan — the call list equals the
modification dict keys, which are distinct and are exactly the ids of
groups from which the plan moved a positive amount. -/
theorem execute_plan_call_discipline (groups : List RIGroup) (plan : List Action) :
    (∀ r ∈ execute_plan groups plan false, r = ModResult.dryRun) ∧
    api_calls (execute_plan groups plan true) =
      (build_modifications groups [] plan).2.map Prod.fst ∧
    ((build_modifications groups [] plan).2.map Prod.fst).Nodup ∧
    (∀ x : String, x ∈ (build_modifications groups [] plan).2.map Prod.fst ↔
      ∃ j, j < groups.length ∧ gid groups j = x ∧
        0 < mods_moves (build_modifications groups [] plan).2 j) := by
  obtain ⟨hlen, hfld, hcnt, hnd, hprop, hne, hnn⟩ := build_modifications_spec plan groups []
    (by simp) (by simp) (by simp)
  have hgid1 : ∀ j, gid (build_modifications groups [] plan).1 j = gid groups j :=
    fun j => gid_of_gfields (hfld j)
  refine ⟨execute_plan_dry groups plan, ?_, hnd, ?_⟩
  · show api_calls ((build_modifications groups [] plan).2.map fun kv =>
      move_reserved_instances (build_modifications groups [] plan).1 kv.2 true) = _
    apply api_calls_map_true
    · intro kv hkv x hx
      rw [hgid1 x.1]
      exact (hprop kv hkv x hx).2.1
    · exact hne
  · intro x
    constructor
    · intro hx
      rcases List.mem_map.mp hx with ⟨kv, hkv, hkvx⟩
      obtain ⟨d0, hd0⟩ := List.exists_mem_of_ne_nil kv.2 (hne kv hkv)
      obtain ⟨hd0len, hd0gid, hd0pos⟩ := hprop kv hkv d0 hd0
      refine ⟨d0.1, hd0len, by rw [hd0gid, hkvx], ?_⟩
      have h1 := descs_for_pos kv.2 d0 hd0 fun y hy => (hprop kv hkv y hy).2.2
      have h2 := mods_moves_ge (build_modifications groups [] plan).2 kv d0.1 hkv
        fun kv2 hkv2 y hy => (hprop kv2 hkv2 y hy).2.2
      omega
    · rintro ⟨j, hjlen, hjid, hjmov⟩
      obtain ⟨kv, hkv, hkvne⟩ := exists_batch_of_mods_moves_ne_zero
        (build_modifications groups [] plan).2 j (by omega)
      obtain ⟨d, hd, hdj⟩ := exists_mem_of_descs_for_ne_zero kv.2 j hkvne
      obtain ⟨hdl, hdg, _⟩ := hprop kv hkv d hd
      have : kv.1 = x := by
        rw [← hdg, hdj, hjid]
      exact this ▸ List.mem_map_of_mem Prod.fst hkv

/-- C10: the executor never moves more out of a group than its original
capacity — an action count exceeding the available matching capacity is
silently truncated (every recorded move is positive, nothing is recorded
for the excess, and no error is raised) — and execution still returns
one result per batch formed. -/
theorem execute_plan_excess_dropped (groups : List RIGroup) (plan : List Action)
    (optimize : Bool) (hcap : ∀ g ∈ groups, 0 ≤ g.instance_count) :
    (∀ j, mods_moves (build_modifications groups [] plan).2 j ≤ gcount groups j) ∧
    (∀ kv ∈ (build_modifications groups [] plan).2, ∀ d ∈ kv.2, 0 < d.2.2) ∧
    (execute_plan groups plan optimize).length =
      (build_modifications groups [] plan).2.length := by
  obtain ⟨hlen, hfld, hcnt, hnd, hprop, hne, hnn⟩ := build_modifications_spec plan groups []
    (by simp) (by simp) (by simp)
  refine ⟨?_, ?_, ?_⟩
  · intro j
    have hc := hcnt j
    have hz : mods_moves ([] : Mods) j = 0 := rfl
    have h1 : 0 ≤ gcount (build_modifications groups [] plan).1 j := by
      rcases hnn j with h | h
      · exact h
      · rw [h]
        exact gcount_nonneg_of_cap groups hcap j
    omega
  · intro kv hkv d hd
    exact (hprop kv hkv d hd).2.2
  · show ((build_modifications groups [] plan).2.map fun kv =>
        move_reserved_instances (build_modifications groups [] plan).1 kv.2 optimize).length = _
    rw [List.length_map]

/-- Witness for C10: an action asking for 100 units where only 10 are
available moves at most the original capacity out of the first group. -/
theorem execute_plan_excess_dropped_witness :
    mods_moves (build_modifications groups_demo [] plan_excess_demo).2 0 ≤
      gcount groups_demo 0 :=
  (execute_plan_excess_dropped groups_demo plan_excess_demo true (by decide)).1 0

/-- C5: with in-flight prior modifications the run still computes the
plan, but execution is forced into dry-run mode even when the caller
asked to optimize, so every returned modification id is the sentinel. -/
theorem riptimize_inflight_guard (ri_inventory i_inventory : Inventory)
    (supported_ri_zones : List String) (processing_modifications : List String)
    (ri_groups : List RIGroup) (optimize : Bool)
    (h : processing_modifications ≠ []) :
    (riptimize_core ri_inventory i_inventory supported_ri_zones processing_modifications
        ri_groups optimize).2.2.1 =
      greedy_distribution (eliminate_unsupported_zones
        (compute_ri_mistmatch ri_inventory i_inventory) supported_ri_zones).1 ∧
    ∀ r ∈ (riptimize_core ri_inventory i_inventory supported_ri_zones
        processing_modifications ri_groups optimize).2.2.2, r = ModResult.dryRun := by
  have hinf : decide (processing_modifications.length ≠ 0) = true := by
    simp [List.length_eq_zero, h]
  unfold riptimize_core
  rw [hinf]
  constructor
  · rfl
  · intro r hr
    dsimp only at hr
    rw [Bool.not_true, Bool.and_false] at hr
    by_cases hp : 0 < (greedy_distribution (eliminate_unsupported_zones
        (compute_ri_mistmatch ri_inventory i_inventory) supported_ri_zones).1).length
    · rw [if_pos hp] at hr
      exact execute_plan_dry ri_groups _ r hr
    · rw [if_neg hp] at hr
      cases hr

/-- Witness for C5: the worked scenario with one in-flight modification
and optimize requested still yields the plan and a sentinel id. -/
theorem riptimize_inflight_guard_witness :
    (riptimize_core ri_inventory_demo i_inventory_demo supported_zones_demo
        ["rimod-busy"] groups_demo true).2.2.1 =
      greedy_distribution (eliminate_unsupported_zones
        (compute_ri_mistmatch ri_inventory_demo i_inventory_demo) supported_zones_demo).1 :=
  (riptimize_inflight_guard ri_inventory_demo i_inventory_demo supported_zones_demo
    ["rimod-busy"] groups_demo true (by decide)).1

end Riptimize









